import Mathlib

/-!
Verification of the streaming core of the Agentify repository.

This file gives a shallow embedding of `src/agentify/streaming/StreamHandler.js`
(the three provider decoders and the `handleStream` read loop) and of the
tool-dispatch parts of `src/agentify/core/Agentify.js`, and proves the
specification's claims about them.

Buffers are modelled as `List Char` (the JavaScript code works on strings of
UTF-16 units; none of the properties below depends on the encoding of
individual characters).  `JSON.parse` is modelled by an executable recursive
descent parser producing the `Json` type below; JavaScript property access,
truthiness, strict string equality and `for..of` iteration are modelled
explicitly, including the places where they throw `TypeError` (an exception
inside a decoder's per-line `try` block keeps the events already pushed and
skips the rest of that line, exactly as in the source).
-/

namespace Agentify

/-- JSON values as produced by a successful `JSON.parse`.  A number keeps its
source lexeme: the decoders only ever need a number's truthiness, which is
determined by the lexeme's mantissa digits. -/
inductive Json where
  | null
  | bool (b : Bool)
  | num (lexeme : String)
  | str (s : String)
  | arr (elems : List Json)
  | obj (fields : List (String × Json))
  deriving Repr

/-- A JavaScript value flowing through the decoders: either `undefined` or a
parsed JSON value (`JSON.parse` never yields `undefined`). -/
inductive JsValue where
  | undefined
  | val (j : Json)
  deriving Repr

/-- A JSON number is nonzero iff its mantissa (the part before any exponent
marker) has a digit other than 0. -/
def numLexNonZero (lex : String) : Bool :=
  (lex.toList.takeWhile (fun c => !(c == 'e' || c == 'E'))).any
    (fun c => '1' ≤ c && c ≤ '9')

/-- JavaScript truthiness of a parsed JSON value. -/
def truthyJson : Json → Bool
  | .null => false
  | .bool b => b
  | .num lex => numLexNonZero lex
  | .str s => !s.isEmpty
  | .arr _ => true
  | .obj _ => true

/-- JavaScript truthiness of a value (`undefined` is falsy). -/
def truthy : JsValue → Bool
  | .undefined => false
  | .val j => truthyJson j

/-- Property read `j.k` on a parsed JSON value that is not `null`.  Objects
use last-binding-wins, matching `JSON.parse` duplicate-key semantics; on any
other value the properties the decoders read are absent (none of the names
`choices`, `delta`, `content`, ... is a built-in of String, Array, Boolean or
Number), hence `undefined`. -/
def jsPropNN (j : Json) (k : String) : JsValue :=
  match j with
  | .obj fields =>
    match fields.reverse.find? (fun p => p.1 == k) with
    | some p => .val p.2
    | none => .undefined
  | _ => .undefined

/-- Property read `v.k` with full JavaScript semantics: access on `null` or
`undefined` throws a `TypeError`, modelled as `none`. -/
def jsProp : JsValue → String → Option JsValue
  | .undefined, _ => none
  | .val .null, _ => none
  | .val j, k => some (jsPropNN j k)

/-- Optional-chaining read `v?.k`: yields `undefined` instead of throwing on
`null`/`undefined`. -/
def jsOptProp : JsValue → String → JsValue
  | .undefined, _ => .undefined
  | .val .null, _ => .undefined
  | .val j, k => jsPropNN j k

/-- Index read `v[i]`: arrays index their elements, strings index to a
one-character string, other primitives have no index properties.  Every
index read in the source is guarded by a truthiness check on `v`, so the
`null`/`undefined` throw cannot fire; the catch-all returns `undefined`. -/
def jsIndex : JsValue → Nat → JsValue
  | .val (.arr l), i =>
    match l[i]? with
    | some e => .val e
    | none => .undefined
  | .val (.str s), i =>
    match s.toList[i]? with
    | some c => .val (.str (String.mk [c]))
    | none => .undefined
  | _, _ => .undefined

/-- `for..of` iteration: arrays iterate their elements, strings iterate their
characters (as one-character strings); any other value is not iterable and
the loop header throws a `TypeError`, modelled as `none`. -/
def jsIter : JsValue → Option (List JsValue)
  | .val (.arr l) => some (l.map .val)
  | .val (.str s) => some (s.toList.map (fun c => .val (.str (String.mk [c]))))
  | _ => none

/-- Strict equality `v === lit` against a string literal. -/
def strEq (v : JsValue) (lit : String) : Bool :=
  match v with
  | .val (.str s) => s == lit
  | _ => false

/-! ### A model of `JSON.parse`

A standard recursive-descent JSON parser over `List Char`, with fuel for
termination.  `parseJson` runs it with fuel `length + 1`, which is enough for
any input because every recursive call consumes at least one character before
burning one unit of fuel.  The claims below are conditional on the parser's
verdict (parse success with a given value / parse failure), so what they
assert does not hinge on corner cases of this model. -/

/-- JSON insignificant whitespace. -/
def jsonWs (c : Char) : Bool := c == ' ' || c == '\t' || c == '\n' || c == '\r'

/-- Skip insignificant whitespace. -/
def skipWs (s : List Char) : List Char := s.dropWhile jsonWs

/-- Value of a hex digit. -/
def hexVal? (c : Char) : Option Nat :=
  if '0' ≤ c ∧ c ≤ '9' then some (c.toNat - 48)
  else if 'a' ≤ c ∧ c ≤ 'f' then some (c.toNat - 87)
  else if 'A' ≤ c ∧ c ≤ 'F' then some (c.toNat - 55)
  else none

/-- Parse the body of a JSON string (the opening quote already consumed),
handling the escape sequences of the JSON grammar and rejecting raw control
characters. -/
def parseStrBody (fuel : Nat) (acc : List Char) (s : List Char) :
    Option (String × List Char) :=
  match fuel, s with
  | 0, _ => none
  | _, [] => none
  | fuel + 1, c :: rest =>
    if c = '"' then some (acc.reverse.asString, rest)
    else if c = '\\' then
      match rest with
      | 'n' :: r => parseStrBody fuel ('\n' :: acc) r
      | 't' :: r => parseStrBody fuel ('\t' :: acc) r
      | 'r' :: r => parseStrBody fuel ('\r' :: acc) r
      | 'b' :: r => parseStrBody fuel (Char.ofNat 8 :: acc) r
      | 'f' :: r => parseStrBody fuel (Char.ofNat 12 :: acc) r
      | '"' :: r => parseStrBody fuel ('"' :: acc) r
      | '\\' :: r => parseStrBody fuel ('\\' :: acc) r
      | '/' :: r => parseStrBody fuel ('/' :: acc) r
      | 'u' :: h1 :: h2 :: h3 :: h4 :: r =>
        match hexVal? h1, hexVal? h2, hexVal? h3, hexVal? h4 with
        | some a, some b, some c2, some d =>
          parseStrBody fuel (Char.ofNat (a * 4096 + b * 256 + c2 * 16 + d) :: acc) r
        | _, _, _, _ => none
      | _ => none
    else if c.toNat < 32 then none
    else parseStrBody fuel (c :: acc) rest

/-- Digits `0`-`9`. -/
def isDigit (c : Char) : Bool := '0' ≤ c && c ≤ '9'

/-- Parse a JSON number, returning its lexeme. -/
def parseNum (s : List Char) : Option (Json × List Char) :=
  let (sign, s1) := match s with
    | '-' :: r => (['-'], r)
    | _ => ([], s)
  match s1 with
  | '0' :: r =>
    let (frac, r2) := parseFracExp r
    some (.num ((sign ++ '0' :: frac).asString), r2)
  | c :: r =>
    if isDigit c ∧ c ≠ '0' then
      let ds := r.takeWhile isDigit
      let r1 := r.dropWhile isDigit
      let (frac, r2) := parseFracExp r1
      some (.num ((sign ++ c :: ds ++ frac).asString), r2)
    else none
  | [] => none
where
  /-- Parse the optional fraction and exponent; on a malformed tail, consume
  nothing (the caller's overall parse then fails on leftover input, as
  `JSON.parse` does). -/
  parseFracExp (s : List Char) : List Char × List Char :=
    let (fracPart, s1) := match s with
      | '.' :: r =>
        let ds := r.takeWhile isDigit
        if ds.isEmpty then (([] : List Char), s)
        else ('.' :: ds, r.dropWhile isDigit)
      | _ => ([], s)
    let (expPart, s2) := match s1 with
      | e :: r =>
        if e == 'e' || e == 'E' then
          let (sgn, r1) := match r with
            | '+' :: r2 => (['+'], r2)
            | '-' :: r2 => (['-'], r2)
            | _ => ([], r)
          let ds := r1.takeWhile isDigit
          if ds.isEmpty then (([] : List Char), s1)
          else (e :: (sgn ++ ds), r1.dropWhile isDigit)
        else ([], s1)
      | [] => ([], s1)
    (fracPart ++ expPart, s2)

mutual

/-- Parse one JSON value (leading whitespace allowed). -/
def parseVal : Nat → List Char → Option (Json × List Char)
  | 0, _ => none
  | fuel + 1, s =>
    match skipWs s with
    | 'n' :: 'u' :: 'l' :: 'l' :: rest => some (.null, rest)
    | 't' :: 'r' :: 'u' :: 'e' :: rest => some (.bool true, rest)
    | 'f' :: 'a' :: 'l' :: 's' :: 'e' :: rest => some (.bool false, rest)
    | '"' :: rest =>
      match parseStrBody (rest.length + 1) [] rest with
      | some (str, r) => some (.str str, r)
      | none => none
    | '[' :: rest =>
      (match skipWs rest with
       | ']' :: r => some (.arr [], r)
       | r =>
         match parseElems fuel r with
         | some (es, r2) => some (.arr es, r2)
         | none => none)
    | '{' :: rest =>
      (match skipWs rest with
       | '}' :: r => some (.obj [], r)
       | r =>
         match parseFields fuel r with
         | some (fs, r2) => some (.obj fs, r2)
         | none => none)
    | s2 => parseNum s2

/-- Parse the elements of a nonempty JSON array, up to and including the
closing bracket. -/
def parseElems : Nat → List Char → Option (List Json × List Char)
  | 0, _ => none
  | fuel + 1, s =>
    match parseVal fuel s with
    | none => none
    | some (v, r) =>
      match skipWs r with
      | ',' :: r2 =>
        (match parseElems fuel r2 with
         | some (es, r3) => some (v :: es, r3)
         | none => none)
      | ']' :: r2 => some ([v], r2)
      | _ => none

/-- Parse the fields of a nonempty JSON object, up to and including the
closing brace. -/
def parseFields : Nat → List Char → Option (List (String × Json) × List Char)
  | 0, _ => none
  | fuel + 1, s =>
    match skipWs s with
    | '"' :: rest =>
      (match parseStrBody (rest.length + 1) [] rest with
       | none => none
       | some (key, r) =>
         match skipWs r with
         | ':' :: r2 =>
           (match parseVal fuel r2 with
            | none => none
            | some (v, r3) =>
              match skipWs r3 with
              | ',' :: r4 =>
                (match parseFields fuel r4 with
                 | some (fs, r5) => some ((key, v) :: fs, r5)
                 | none => none)
              | '}' :: r4 => some ([(key, v)], r4)
              | _ => none)
         | _ => none)
    | _ => none

end

/-- The model of `JSON.parse`: parse one value and require that only
whitespace remain. -/
def parseJson (s : List Char) : Option Json :=
  match parseVal (s.length + 1) s with
  | some (j, rest) => if (skipWs rest).isEmpty then some j else none
  | none => none

/-! ### Semantic events and line-level helpers -/

/-- A semantic event, i.e. one of the objects the decoders push into
`processed` and the `handleStream` read loop consumes.  A `tool_call`'s
payload is the object literal of the source, kept as its ordered field list
(a field's value may be `undefined`, e.g. an absent `id`). -/
inductive Event where
  | token (content : JsValue)
  | thinking (content : JsValue)
  | tool_call (data : List (String × JsValue))
  | finish (reason : JsValue)
  | error (data : JsValue)
  deriving Repr

/-- JavaScript's whitespace set for `String.prototype.trim` (WhiteSpace and
LineTerminator code points). -/
def jsWs (c : Char) : Bool :=
  c == ' ' || c == '\t' || c == '\n' || c == '\r' ||
  c == Char.ofNat 11 || c == Char.ofNat 12 ||
  c == Char.ofNat 160 || c == Char.ofNat 5760 ||
  (Char.ofNat 8192 ≤ c && c ≤ Char.ofNat 8202) ||
  c == Char.ofNat 8232 || c == Char.ofNat 8233 ||
  c == Char.ofNat 8239 || c == Char.ofNat 8287 ||
  c == Char.ofNat 12288 || c == Char.ofNat 65279

/-- `line.trim()`. -/
def jsTrim (l : List Char) : List Char :=
  ((l.dropWhile jsWs).reverse.dropWhile jsWs).reverse

/-- The `data: ` SSE field marker. -/
def dataTag : List Char := "data: ".toList

/-! ### The delta-SSE (OpenAI/DeepSeek) decoder: `processOpenAIBuffer` -/

/-- The `for (const toolCall of choice.delta.tool_calls)` loop: an entry
whose `function` property is truthy pushes one `tool_call` event.  Reading
`.function` on a `null` entry throws a `TypeError`, which aborts the rest of
the line while keeping the events already pushed; the `Bool` records whether
the loop reached its end normally. -/
def openAIToolCalls : List JsValue → List Event × Bool
  | [] => ([], true)
  | tc :: rest =>
    match jsProp tc "function" with
    | none => ([], false)
    | some fn =>
      let here :=
        if truthy fn then
          [Event.tool_call
            [("id", (jsProp tc "id").getD .undefined),
             ("name", jsOptProp fn "name"),
             ("arguments", jsOptProp fn "arguments")]]
        else []
      let d := openAIToolCalls rest
      (here ++ d.1, d.2)

/-- The body of `processOpenAIBuffer`'s per-line `try` block after
`JSON.parse` succeeded with `data`: the guard `data.choices &&
data.choices[0]`, then the content delta, the tool-call loop and the finish
reason, in push order.  `data.choices` on a parsed `null` throws, skipping
the line; `for..of` over a truthy non-iterable `tool_calls` value throws
after the token event was already pushed. -/
def openAIParsed (data : Json) : List Event :=
  match jsProp (.val data) "choices" with
  | none => []
  | some choices =>
    if truthy choices && truthy (jsIndex choices 0) then
      match jsIndex choices 0 with
      | .undefined => []
      | .val choice =>
        let content := jsOptProp (jsPropNN choice "delta") "content"
        let tokenEvs := if truthy content then [Event.token content] else []
        let reason := jsPropNN choice "finish_reason"
        let finishEvs := if truthy reason then [Event.finish reason] else []
        let tcs := jsOptProp (jsPropNN choice "delta") "tool_calls"
        if truthy tcs then
          match jsIter tcs with
          | none => tokenEvs
          | some entries =>
            let d := openAIToolCalls entries
            if d.2 then tokenEvs ++ d.1 ++ finishEvs
            else tokenEvs ++ d.1
        else tokenEvs ++ finishEvs
    else []

/-- One line of the delta-SSE decode pass (`processOpenAIBuffer`'s loop
body): blank lines and the `data: [DONE]` sentinel are dropped, a `data: `
line has the 6-character marker stripped and the rest `JSON.parse`d, a
parse failure skips the line, and any other line is ignored. -/
def openAILine (line : List Char) : List Event :=
  if (jsTrim line).isEmpty ∨ jsTrim line = ("data: [DONE]").toList then []
  else if dataTag.isPrefixOf line then
    match parseJson (line.drop 6) with
    | none => []
    | some data => openAIParsed data
  else []

/-! ### The typed-SSE (Anthropic) decoder: `processAnthropicBuffer` -/

/-- Characters the regexes `/^event: (.+)$/` and `/^data: (.+)$/` cannot
match with `.` (ECMAScript LineTerminator). -/
def lineTermFree (l : List Char) : Bool :=
  l.all (fun c =>
    !(c == '\n' || c == '\r' || c == Char.ofNat 8232 || c == Char.ofNat 8233))

/-- The body of `processAnthropicBuffer`'s per-line `try` block after
`JSON.parse` succeeded with `data`.  `data.type` on a parsed `null` throws,
skipping the line; afterwards no access can throw.  A
`content_block_start` whose block type is `thinking` is recognized but
pushes nothing (empty branch in the source). -/
def anthropicParsed (data : Json) : List Event :=
  match data with
  | .null => []
  | _ =>
    let ty := jsPropNN data "type"
    let text := jsOptProp (jsPropNN data "delta") "text"
    let tokenEvs :=
      if strEq ty "content_block_delta" && truthy text then
        [Event.token text]
      else []
    let cb := jsPropNN data "content_block"
    let toolEvs :=
      if strEq ty "content_block_start" && strEq (jsOptProp cb "type") "tool_use" then
        [Event.tool_call
          [("id", jsOptProp cb "id"),
           ("name", jsOptProp cb "name"),
           ("input", jsOptProp cb "input")]]
      else []
    let stopEvs :=
      if strEq ty "message_stop" then [Event.finish (.val (.str "stop"))] else []
    tokenEvs ++ toolEvs ++ stopEvs

/-- One line of the typed-SSE decode pass (`processAnthropicBuffer`'s loop
body): blank lines are dropped; on an `event: ` or `data: ` line, the regex
`/^data: (.+)$/` must match (so the part after the marker is nonempty and
free of line terminators) and its capture is `JSON.parse`d; parse failures
and all other lines are skipped. -/
def anthropicLine (line : List Char) : List Event :=
  if (jsTrim line).isEmpty then []
  else if ("event: ").toList.isPrefixOf line ∨ dataTag.isPrefixOf line then
    if dataTag.isPrefixOf line ∧ line.drop 6 ≠ [] ∧ lineTermFree (line.drop 6) then
      match parseJson (line.drop 6) with
      | none => []
      | some data => anthropicParsed data
    else []
  else []

/-! ### The NDJSON (Gemini) decoder: `processGeminiBuffer` -/

/-- The `for (const part of candidate.content.parts)` loop: a truthy `text`
pushes a token, a truthy `functionCall` pushes a `tool_call` whose
`arguments` field is the call's `args` value.  `part.text` on a `null` entry
throws, aborting the rest of the line while keeping earlier events. -/
def geminiParts : List JsValue → List Event × Bool
  | [] => ([], true)
  | part :: rest =>
    match jsProp part "text" with
    | none => ([], false)
    | some textV =>
      let tokenEvs := if truthy textV then [Event.token textV] else []
      let fc := jsOptProp part "functionCall"
      let fcEvs :=
        if truthy fc then
          [Event.tool_call
            [("name", jsOptProp fc "name"),
             ("arguments", jsOptProp fc "args")]]
        else []
      let d := geminiParts rest
      (tokenEvs ++ fcEvs ++ d.1, d.2)

/-- The body of `processGeminiBuffer`'s per-line `try` block after
`JSON.parse` succeeded with `data`: the guard `data.candidates &&
data.candidates[0]`, the parts loop, then the finish reason.  An exception
inside the parts loop (null entry, or `for..of` on a truthy non-iterable
`parts`) also skips the `finishReason` check. -/
def geminiParsed (data : Json) : List Event :=
  match jsProp (.val data) "candidates" with
  | none => []
  | some cands =>
    if truthy cands && truthy (jsIndex cands 0) then
      match jsIndex cands 0 with
      | .undefined => []
      | .val candidate =>
        let reason := jsPropNN candidate "finishReason"
        let finishEvs := if truthy reason then [Event.finish reason] else []
        let parts := jsOptProp (jsPropNN candidate "content") "parts"
        if truthy parts then
          match jsIter parts with
          | none => []
          | some entries =>
            let d := geminiParts entries
            if d.2 then d.1 ++ finishEvs else d.1
        else finishEvs
    else []

/-- One line of the NDJSON decode pass (`processGeminiBuffer`'s loop body):
blank lines are dropped and every other line is `JSON.parse`d as a
standalone document; parse failures are skipped. -/
def geminiLine (line : List Char) : List Event :=
  if (jsTrim line).isEmpty then []
  else
    match parseJson line with
    | none => []
    | some data => geminiParsed data

/-! ### The shared split/pop/loop shape of the three `process*Buffer`s -/

/-- `buffer.split('\n')`: split at every newline, keeping empty segments;
the result always has one more segment than there are newlines, and in
particular is never empty. -/
def splitNl : List Char → List (List Char)
  | [] => [[]]
  | c :: cs =>
    if c = '\n' then [] :: splitNl cs
    else (c :: (splitNl cs).headD []) :: (splitNl cs).tail

/-- The decode pass shared by the three `process*Buffer` methods:
`const lines = this.buffer.split('\n'); this.buffer = lines.pop() || '';`
then the per-line loop.  Returns the pushed events and the new buffer
(the remainder). -/
def decodeLines (pl : List Char → List Event) (buf : List Char) :
    List Event × List Char :=
  ((splitNl buf).dropLast.flatMap pl, (splitNl buf).getLastD [])

/-- `processOpenAIBuffer`, as a function of the buffer. -/
def processOpenAIBuffer (buf : List Char) : List Event × List Char :=
  decodeLines openAILine buf

/-- `processAnthropicBuffer`, as a function of the buffer. -/
def processAnthropicBuffer (buf : List Char) : List Event × List Char :=
  decodeLines anthropicLine buf

/-- `processGeminiBuffer`, as a function of the buffer. -/
def processGeminiBuffer (buf : List Char) : List Event × List Char :=
  decodeLines geminiLine buf

/-- `processBuffer`: the provider switch.  `openai` and `deepseek` share the
delta-SSE decoder, and the `default` arm also falls through to it. -/
def processBuffer (provider : String) (buf : List Char) :
    List Event × List Char :=
  if provider = "openai" ∨ provider = "deepseek" then processOpenAIBuffer buf
  else if provider = "anthropic" then processAnthropicBuffer buf
  else if provider = "gemini" then processGeminiBuffer buf
  else processOpenAIBuffer buf

/-! ### Split-invariance of the shared decode pass -/

theorem splitNl_ne_nil (l : List Char) : splitNl l ≠ [] := by
  cases l with
  | nil => simp [splitNl]
  | cons c cs =>
    simp only [splitNl]
    split <;> simp

theorem splitNl_eq_cons (l : List Char) :
    splitNl l = (splitNl l).headD [] :: (splitNl l).tail := by
  cases h : splitNl l with
  | nil => exact absurd h (splitNl_ne_nil l)
  | cons a as => simp

theorem splitNl_cons_nl (cs : List Char) :
    splitNl ('\n' :: cs) = [] :: splitNl cs := by
  simp [splitNl]

theorem splitNl_cons_of_ne (c : Char) (cs : List Char) (hc : c ≠ '\n') :
    splitNl (c :: cs) = (c :: (splitNl cs).headD []) :: (splitNl cs).tail := by
  simp [splitNl, hc]

theorem getLastD_cons_of_ne_nil {α : Type} (a d : α) (l : List α) (h : l ≠ []) :
    (a :: l).getLastD d = l.getLastD d := by
  cases l with
  | nil => exact absurd rfl h
  | cons b bs => rfl

theorem dropLast_cons_of_ne_nil {α : Type} (a : α) (l : List α) (h : l ≠ []) :
    (a :: l).dropLast = a :: l.dropLast := by
  cases l with
  | nil => exact absurd rfl h
  | cons b bs => rfl

theorem getLastD_append_of_ne_nil {α : Type} (xs ys : List α) (d : α)
    (h : ys ≠ []) : (xs ++ ys).getLastD d = ys.getLastD d := by
  induction xs with
  | nil => rfl
  | cons x xs ih =>
    rw [List.cons_append, getLastD_cons_of_ne_nil _ _ _ (by simp [h]), ih]

theorem dropLast_append_of_ne_nil {α : Type} (xs ys : List α) (h : ys ≠ []) :
    (xs ++ ys).dropLast = xs ++ ys.dropLast := by
  induction xs with
  | nil => rfl
  | cons x xs ih =>
    rw [List.cons_append, dropLast_cons_of_ne_nil _ _ (by simp [h]), ih,
      List.cons_append]

/-- How `split('\n')` distributes over concatenation: the segments of
`a ++ b` are the full segments of `a`, then the last (partial) segment of
`a` glued to the first segment of `b`, then the remaining segments of `b`. -/
theorem splitNl_append (a b : List Char) :
    splitNl (a ++ b) =
      (splitNl a).dropLast ++
        ((splitNl a).getLastD [] ++ (splitNl b).headD []) :: (splitNl b).tail := by
  induction a with
  | nil =>
    exact splitNl_eq_cons b
  | cons c cs ih =>
    by_cases hc : c = '\n'
    · subst hc
      have hne := splitNl_ne_nil cs
      rw [List.cons_append, splitNl_cons_nl, ih, splitNl_cons_nl,
        dropLast_cons_of_ne_nil _ _ hne, getLastD_cons_of_ne_nil _ _ _ hne,
        List.cons_append]
    · cases hcs : splitNl cs with
      | nil => exact absurd hcs (splitNl_ne_nil cs)
      | cons h t =>
        cases t with
        | nil =>
          have ih' : splitNl (cs ++ b) =
              (h ++ (splitNl b).headD []) :: (splitNl b).tail := by
            rw [ih, hcs]; rfl
          rw [List.cons_append, splitNl_cons_of_ne c _ hc, ih',
            splitNl_cons_of_ne c cs hc, hcs]
          rfl
        | cons h2 t2 =>
          have ih' : splitNl (cs ++ b) =
              h :: ((h2 :: t2).dropLast ++
                ((h2 :: t2).getLastD [] ++ (splitNl b).headD []) ::
                  (splitNl b).tail) := by
            rw [ih, hcs]; rfl
          rw [List.cons_append, splitNl_cons_of_ne c _ hc, ih',
            splitNl_cons_of_ne c cs hc, hcs]
          rfl

theorem splitNl_of_noNl (l : List Char) (h : '\n' ∉ l) : splitNl l = [l] := by
  induction l with
  | nil => rfl
  | cons c cs ih =>
    have hc : c ≠ '\n' := fun e => h (e ▸ List.mem_cons_self c cs)
    have hcs := ih (fun m => h (List.mem_cons_of_mem c m))
    simp [splitNl, hc, hcs]

/-- The remainder kept by `split('\n')`/`pop()` never contains a newline. -/
theorem splitNl_getLastD_noNl (l : List Char) : '\n' ∉ (splitNl l).getLastD [] := by
  induction l with
  | nil => simp [splitNl]
  | cons c cs ih =>
    by_cases hc : c = '\n'
    · subst hc
      rw [splitNl_cons_nl, getLastD_cons_of_ne_nil _ _ _ (splitNl_ne_nil cs)]
      exact ih
    · cases hcs : splitNl cs with
      | nil => exact absurd hcs (splitNl_ne_nil cs)
      | cons h t =>
        cases t with
        | nil =>
          rw [splitNl_cons_of_ne c cs hc, hcs]
          have ih' : ('\n' : Char) ∉ h := by rw [hcs] at ih; exact ih
          show ('\n' : Char) ∉ c :: h
          intro hm
          rcases List.mem_cons.mp hm with h1 | h2
          · exact hc h1.symm
          · exact ih' h2
        | cons h2 t2 =>
          rw [splitNl_cons_of_ne c cs hc, hcs]
          have ih' : ('\n' : Char) ∉ (h2 :: t2).getLastD [] := by
            rw [hcs] at ih; exact ih
          show ('\n' : Char) ∉ (h2 :: t2).getLastD []
          exact ih'

/-- Split-invariance of the shared decode pass: decoding `a`, then decoding
the returned remainder followed by `b`, yields the same concatenated event
sequence and the same final remainder as decoding `a ++ b` in one pass. -/
theorem decodeLines_split (pl : List Char → List Event) (a b : List Char) :
    (decodeLines pl a).1 ++ (decodeLines pl ((decodeLines pl a).2 ++ b)).1 =
        (decodeLines pl (a ++ b)).1 ∧
      (decodeLines pl ((decodeLines pl a).2 ++ b)).2 =
        (decodeLines pl (a ++ b)).2 := by
  have hr1 : splitNl ((splitNl a).getLastD [] ++ b) =
      ((splitNl a).getLastD [] ++ (splitNl b).headD []) :: (splitNl b).tail := by
    rw [splitNl_append, splitNl_of_noNl _ (splitNl_getLastD_noNl a)]
    simp [List.getLastD_cons]
  have hab : splitNl (a ++ b) =
      (splitNl a).dropLast ++ splitNl ((splitNl a).getLastD [] ++ b) := by
    rw [splitNl_append, hr1]
  constructor
  · show (splitNl a).dropLast.flatMap pl ++
        (splitNl ((splitNl a).getLastD [] ++ b)).dropLast.flatMap pl =
        (splitNl (a ++ b)).dropLast.flatMap pl
    rw [hab, dropLast_append_of_ne_nil _ _
      (splitNl_ne_nil ((splitNl a).getLastD [] ++ b)), List.flatMap_append]
  · show (splitNl ((splitNl a).getLastD [] ++ b)).getLastD [] =
        (splitNl (a ++ b)).getLastD []
    rw [hab, getLastD_append_of_ne_nil _ _ _
      (splitNl_ne_nil ((splitNl a).getLastD [] ++ b))]

/-- The per-line processor each arm of `processBuffer`'s switch uses. -/
def providerLine (provider : String) : List Char → List Event :=
  if provider = "openai" ∨ provider = "deepseek" then openAILine
  else if provider = "anthropic" then anthropicLine
  else if provider = "gemini" then geminiLine
  else openAILine

theorem processBuffer_eq (provider : String) (buf : List Char) :
    processBuffer provider buf = decodeLines (providerLine provider) buf := by
  unfold processBuffer providerLine processOpenAIBuffer processAnthropicBuffer
    processGeminiBuffer
  split_ifs <;> rfl

/-! ### The `handleStream` read loop

`handleStream` is modelled as a pure function of the transport's read
sequence.  The `while (this.isStreaming)` gate with an external
`stopStream()` truncates the read sequence, so quantifying over all read
sequences covers stopped runs as well.  The byte-to-text `TextDecoder` is
outside the model: chunks arrive as text. -/

/-- A JavaScript exception: a `StreamError` built by the error factory, or
any other error (transport failure, misbehaving callback, ...), carrying its
`message` and `stack` strings. -/
inductive JsError where
  | streamError (message : String) (code : String)
      (details : List (String × JsValue))
  | other (message : String) (stack : String)
  deriving Repr

/-- Modelled from the spec: the error factory `ErrorManager.createStreamError`
(the `ErrorManager`/`StreamError` classes live in `src/agentify/errors/`,
which is not among the staged sources).  Per the spec it "constructs a
stream-parse-failure carrying a machine-readable code and a details
payload". -/
def createStreamError (message code : String)
    (details : List (String × JsValue)) : JsError :=
  .streamError message code details

/-- The machine-readable code `StreamError.codes.PARSE_FAILED`. -/
def parseFailedCode : String := "PARSE_FAILED"

/-- `error instanceof StreamError`. -/
def isStreamError : JsError → Bool
  | .streamError _ _ _ => true
  | .other _ _ => false

/-- `error.message`. -/
def jsErrorMessage : JsError → String
  | .streamError m _ _ => m
  | .other m _ => m

/-- `error.stack` (only read on the wrap path, which a `StreamError` never
takes; for one it is modelled as empty). -/
def jsErrorStack : JsError → String
  | .streamError _ _ _ => ""
  | .other _ st => st

/-- The wrap `handleStream`'s catch block applies to an exception that is
not already a recognized `StreamError`. -/
def wrapError (e : JsError) : JsError :=
  createStreamError "Stream processing failed" parseFailedCode
    [("originalError", .val (.str (jsErrorMessage e))),
     ("stack", .val (.str (jsErrorStack e)))]

/-- Modelled from the spec: `formatThinkingContent` of
`src/agentify/utils/formatters.js` (not among the staged sources), the
"display-formatting transform" applied before `onThinking`.  Modelled as the
identity; no claim depends on its value (claim C9 shows it is never
reached). -/
def formatThinkingContent (v : JsValue) : JsValue := v

mutual

/-- JavaScript string coercion of a parsed JSON value, as `fullContent +=
item.content` performs when the pushed content is not a string.  Number
coercion is modelled as the lexeme (JavaScript re-formats the numeric value;
no claim depends on the coerced text of a non-string content). -/
def jsToStringJson : Json → String
  | .null => "null"
  | .bool b => if b then "true" else "false"
  | .num lex => lex
  | .str s => s
  | .arr l => jsToStringArr l
  | .obj _ => "[object Object]"

/-- Array-to-string coercion: elements joined with a comma. -/
def jsToStringArr : List Json → String
  | [] => ""
  | [x] => jsToStringJson x
  | x :: xs => jsToStringJson x ++ "," ++ jsToStringArr xs

end

/-- String coercion of a value. -/
def jsToString : JsValue → String
  | .undefined => "undefined"
  | .val j => jsToStringJson j

/-- The result object `handleStream` resolves with. -/
structure StreamResult where
  content : String
  toolCalls : List (List (String × JsValue))
  thinkingContent : String
  finishReason : String
  deriving Repr

/-- One observable action of a `handleStream` run: a callback invocation, or
reaching the in-band error abort branch (`item.type === 'error'`). -/
inductive TraceEntry where
  | tokenCb (content : JsValue)
  | thinkingCb (content : JsValue)
  | toolCallCb (data : List (String × JsValue))
  | completeCb (result : StreamResult)
  | errorCb (e : JsError)
  | inbandError (data : JsValue)
  deriving Repr

/-- The behaviour of the caller-supplied callbacks: for each invocation, the
exception it throws synchronously (`none` = returns normally).
`onToolCall`'s asynchronous outcome is the separate `toolOutcome` parameter
of the run; `onError`, the last-chance notification, is modelled as
returning normally. -/
structure Cbs where
  onTokenE : JsValue → Option JsError
  onToolCallE : List (String × JsValue) → Option JsError
  onThinkingE : JsValue → Option JsError
  onCompleteE : StreamResult → Option JsError

/-- The read loop's accumulators. -/
structure LoopSt where
  fullContent : String
  toolCalls : List (List (String × JsValue))
  thinkingContent : String

/-- What one run of the `for (const item of processed)` dispatch loop
produces: the updated accumulators, the trace of what happened, the launched
and never awaited tool promises, and the exception it raised, if any (in
which case the remaining events are not dispatched but everything already
done stands). -/
structure DispatchOut where
  st : LoopSt
  tr : List TraceEntry
  pend : List (Except JsError Json)
  raised : Option JsError

/-- The `for (const item of processed)` loop of `handleStream`: `token`
appends to `fullContent` and invokes `onToken`; `thinking` appends to
`thinkingContent` and invokes `onThinking` on the formatted content;
`tool_call` appends to `toolCalls` and invokes `onToolCall`, whose
asynchronous outcome (`toolOutcome`) is launched and never awaited; `finish`
matches no branch and does nothing; `error` raises a stream error built by
the error factory. -/
def dispatchEvents (cbs : Cbs)
    (toolOutcome : List (String × JsValue) → Except JsError Json) :
    List Event → LoopSt → DispatchOut
  | [], st => ⟨st, [], [], none⟩
  | ev :: rest, st =>
    match ev with
    | .token c =>
      let st' := { st with fullContent := st.fullContent ++ jsToString c }
      match cbs.onTokenE c with
      | some e => ⟨st', [.tokenCb c], [], some e⟩
      | none =>
        let d := dispatchEvents cbs toolOutcome rest st'
        ⟨d.st, .tokenCb c :: d.tr, d.pend, d.raised⟩
    | .thinking c =>
      let st' := { st with
        thinkingContent := st.thinkingContent ++ jsToString c }
      match cbs.onThinkingE (formatThinkingContent c) with
      | some e => ⟨st', [.thinkingCb (formatThinkingContent c)], [], some e⟩
      | none =>
        let d := dispatchEvents cbs toolOutcome rest st'
        ⟨d.st, .thinkingCb (formatThinkingContent c) :: d.tr, d.pend, d.raised⟩
    | .tool_call data =>
      let st' := { st with toolCalls := st.toolCalls ++ [data] }
      let p := toolOutcome data
      match cbs.onToolCallE data with
      | some e => ⟨st', [.toolCallCb data], [p], some e⟩
      | none =>
        let d := dispatchEvents cbs toolOutcome rest st'
        ⟨d.st, .toolCallCb data :: d.tr, p :: d.pend, d.raised⟩
    | .finish _ => dispatchEvents cbs toolOutcome rest st
    | .error data =>
      ⟨st, [.inbandError data], [],
        some (createStreamError "Stream error received" parseFailedCode
          [("error", data)])⟩

/-- One transport read: a decoded text chunk, or a read that throws. -/
inductive ReadResult where
  | chunk (s : List Char)
  | readError (e : JsError)

/-- The `while` loop of `handleStream`: read, append to the buffer, decode,
keep the remainder as the new buffer, dispatch the events.  Ends normally
when the reads are exhausted (`done`), or abnormally with the first raised
exception. -/
def runLoop (provider : String) (cbs : Cbs)
    (toolOutcome : List (String × JsValue) → Except JsError Json) :
    List ReadResult → List Char → LoopSt →
    List TraceEntry × List (Except JsError Json) × Except JsError LoopSt
  | [], _, st => ([], [], .ok st)
  | .readError e :: _, _, _ => ([], [], .error e)
  | .chunk s :: rest, buf, st =>
    let p := processBuffer provider (buf ++ s)
    let d := dispatchEvents cbs toolOutcome p.1 st
    match d.raised with
    | some e => (d.tr, d.pend, .error e)
    | none =>
      let out := runLoop provider cbs toolOutcome rest p.2 d.st
      (d.tr ++ out.1, d.pend ++ out.2.1, out.2.2)

/-- `handleStream`, as a function of the provider tag, the callbacks'
behaviour, the tool promises' outcomes and the transport's reads.  Returns
the trace of callback invocations, the launched tool promises, and the
settled promise: on normal loop exit the `Result` (with `finishReason`
fixed to `'stop'`) after invoking `onComplete`; on an exception, `onError`
with the exception — wrapped by the error factory unless it is already a
recognized `StreamError` — and a rejection with that same error. -/
def handleStream (provider : String) (cbs : Cbs)
    (toolOutcome : List (String × JsValue) → Except JsError Json)
    (reads : List ReadResult) :
    List TraceEntry × List (Except JsError Json) × Except JsError StreamResult :=
  let (tr, pend, out) := runLoop provider cbs toolOutcome reads [] ⟨"", [], ""⟩
  match out with
  | .ok st =>
    let result : StreamResult := ⟨st.fullContent, st.toolCalls, st.thinkingContent, "stop"⟩
    match cbs.onCompleteE result with
    | some e0 =>
      let e := if isStreamError e0 then e0 else wrapError e0
      (tr ++ [.completeCb result, .errorCb e], pend, .error e)
    | none => (tr ++ [.completeCb result], pend, .ok result)
  | .error e0 =>
    let e := if isStreamError e0 then e0 else wrapError e0
    (tr ++ [.errorCb e], pend, .error e)

/-- Dispatching a concatenated event list runs the two dispatches in
sequence, short-circuiting if the first raises. -/
theorem dispatchEvents_append (cbs : Cbs)
    (tO : List (String × JsValue) → Except JsError Json)
    (e1 e2 : List Event) (st : LoopSt) :
    dispatchEvents cbs tO (e1 ++ e2) st =
      (let d1 := dispatchEvents cbs tO e1 st
       match d1.raised with
       | some _ => d1
       | none =>
         let d2 := dispatchEvents cbs tO e2 d1.st
         ⟨d2.st, d1.tr ++ d2.tr, d1.pend ++ d2.pend, d2.raised⟩) := by
  induction e1 generalizing st with
  | nil => simp [dispatchEvents]
  | cons ev rest ih =>
    cases ev with
    | token c =>
      cases hcb : cbs.onTokenE c with
      | some e => simp [dispatchEvents, hcb]
      | none =>
        simp only [List.cons_append, dispatchEvents, hcb, List.append_eq]
        rw [ih]
        cases hr : (dispatchEvents cbs tO rest
            { st with fullContent := st.fullContent ++ jsToString c }).raised <;>
          simp [hr]
    | thinking c =>
      cases hcb : cbs.onThinkingE (formatThinkingContent c) with
      | some e => simp [dispatchEvents, hcb]
      | none =>
        simp only [List.cons_append, dispatchEvents, hcb, List.append_eq]
        rw [ih]
        cases hr : (dispatchEvents cbs tO rest
            { st with thinkingContent :=
                st.thinkingContent ++ jsToString c }).raised <;>
          simp [hr]
    | tool_call data =>
      cases hcb : cbs.onToolCallE data with
      | some e => simp [dispatchEvents, hcb]
      | none =>
        simp only [List.cons_append, dispatchEvents, hcb, List.append_eq]
        rw [ih]
        cases hr : (dispatchEvents cbs tO rest
            { st with toolCalls := st.toolCalls ++ [data] }).raised <;>
          simp [hr]
    | finish r =>
      simp only [List.cons_append, dispatchEvents, List.append_eq]
      rw [ih]
    | error data =>
      simp [dispatchEvents]

/-- Two successive chunk reads are decoded exactly as their concatenation
fed as one read: the remainder/buffer carry-over makes the loop
chunk-boundary-blind. -/
theorem runLoop_chunk_merge (provider : String) (cbs : Cbs)
    (tO : List (String × JsValue) → Except JsError Json)
    (a b : List Char) (rest : List ReadResult) (buf : List Char) (st : LoopSt) :
    runLoop provider cbs tO (.chunk a :: .chunk b :: rest) buf st =
      runLoop provider cbs tO (.chunk (a ++ b) :: rest) buf st := by
  have hsplit := decodeLines_split (providerLine provider) (buf ++ a) b
  simp only [← processBuffer_eq] at hsplit
  have hev : (processBuffer provider (buf ++ a)).1 ++
      (processBuffer provider ((processBuffer provider (buf ++ a)).2 ++ b)).1 =
      (processBuffer provider (buf ++ (a ++ b))).1 := by
    rw [← List.append_assoc]; exact hsplit.1
  have hrem : (processBuffer provider ((processBuffer provider (buf ++ a)).2 ++ b)).2 =
      (processBuffer provider (buf ++ (a ++ b))).2 := by
    rw [← List.append_assoc]; exact hsplit.2
  simp only [runLoop]
  rw [← hev, ← hrem, dispatchEvents_append]
  cases hr1 : (dispatchEvents cbs tO (processBuffer provider (buf ++ a)).1 st).raised with
  | some e => simp [hr1]
  | none =>
    simp only [hr1]
    cases hr2 : (dispatchEvents cbs tO
        (processBuffer provider ((processBuffer provider (buf ++ a)).2 ++ b)).1
        (dispatchEvents cbs tO (processBuffer provider (buf ++ a)).1 st).st).raised with
    | some e => simp [hr1, hr2]
    | none => simp [hr1, hr2]

/-- Feeding two chunks equals feeding their concatenation as one chunk, for
a whole `handleStream` run. -/
theorem handleStream_two_chunks (provider : String) (cbs : Cbs)
    (tO : List (String × JsValue) → Except JsError Json) (a b : List Char) :
    handleStream provider cbs tO [.chunk a, .chunk b] =
      handleStream provider cbs tO [.chunk (a ++ b)] := by
  unfold handleStream
  rw [runLoop_chunk_merge]

/-- Callbacks that always return normally (for concrete runs). -/
def cbs0 : Cbs := ⟨fun _ => none, fun _ => none, fun _ => none, fun _ => none⟩

/-- A tool outcome that always resolves with `null` (for concrete runs). -/
def tO0 : List (String × JsValue) → Except JsError Json := fun _ => .ok .null

/-! ### The claims -/

/-- C1: for every provider tag and every payload, splitting the payload at
an arbitrary index into two chunks and decoding them in sequence (carrying
the remainder into the next buffer) yields the same concatenated event
sequence and the same final remainder as decoding the whole payload at
once; consequently a whole `handleStream` run — its accumulated
`fullContent`, `toolCalls` and `thinkingContent` included — is identical on
the two-chunk and the one-chunk transport. -/
theorem C1_split_invariance (provider : String) (cbs : Cbs)
    (tO : List (String × JsValue) → Except JsError Json)
    (s : List Char) (i : Nat) :
    ((processBuffer provider (s.take i)).1 ++
        (processBuffer provider
          ((processBuffer provider (s.take i)).2 ++ s.drop i)).1 =
          (processBuffer provider s).1 ∧
      (processBuffer provider
          ((processBuffer provider (s.take i)).2 ++ s.drop i)).2 =
        (processBuffer provider s).2) ∧
    handleStream provider cbs tO [.chunk (s.take i), .chunk (s.drop i)] =
      handleStream provider cbs tO [.chunk s] := by
  constructor
  · have h := decodeLines_split (providerLine provider) (s.take i) (s.drop i)
    rw [List.take_append_drop] at h
    simpa only [processBuffer_eq] using h
  · rw [handleStream_two_chunks, List.take_append_drop]

/-- C6: a complete line whose JSON payload fails to parse produces no
semantic event, in each of the three decoders (which are total functions of
the line by construction): a `data: `-marked delta-SSE or typed-SSE line
whose payload does not parse, and any NDJSON line that does not parse, is
silently skipped. -/
theorem C6_parse_failure_skipped (line : List Char) :
    (parseJson (line.drop 6) = none → openAILine line = []) ∧
    (parseJson (line.drop 6) = none → anthropicLine line = []) ∧
    (parseJson line = none → geminiLine line = []) := by
  refine ⟨fun h => ?_, fun h => ?_, fun h => ?_⟩
  · unfold openAILine
    split_ifs <;> simp [h]
  · unfold anthropicLine
    split_ifs <;> simp [h]
  · unfold geminiLine
    split_ifs <;> simp [h]

/-- C6 witness: the malformed payloads are dropped eventlessly. -/
theorem C6_witness :
    parseJson (("data: \x7boops").toList.drop 6) = none ∧
    openAILine (("data: \x7boops").toList) = [] ∧
    anthropicLine (("data: \x7boops").toList) = [] ∧
    parseJson (("not json").toList) = none ∧
    geminiLine (("not json").toList) = [] := by
  refine ⟨rfl, ?_, ?_, rfl, ?_⟩
  · exact (C6_parse_failure_skipped (("data: \x7boops").toList)).1 rfl
  · exact (C6_parse_failure_skipped (("data: \x7boops").toList)).2.1 rfl
  · exact (C6_parse_failure_skipped (("not json").toList)).2.2 rfl

/-- C7: whenever `handleStream` completes normally, the returned result's
`finishReason` is the string `stop`, whatever the provider's decoded finish
events carried (the dispatch loop has no branch for `finish` events at
all). -/
theorem C7_finish_reason_stop (provider : String) (cbs : Cbs)
    (tO : List (String × JsValue) → Except JsError Json)
    (reads : List ReadResult) (res : StreamResult)
    (h : (handleStream provider cbs tO reads).2.2 = .ok res) :
    res.finishReason = "stop" := by
  unfold handleStream at h
  rcases hr : runLoop provider cbs tO reads [] ⟨"", [], ""⟩ with ⟨tr, pend, out⟩
  rw [hr] at h
  cases out with
  | ok st =>
    cases hc : cbs.onCompleteE ⟨st.fullContent, st.toolCalls, st.thinkingContent, "stop"⟩ with
    | some e0 => simp [hc] at h
    | none =>
      simp only [hc] at h
      cases h
      rfl
  | error e0 => simp at h

/-- C7 witness: an empty transport completes normally with reason `stop`. -/
theorem C7_witness :
    (handleStream "openai" cbs0 tO0 []).2.2 =
        .ok ⟨"", [], "", "stop"⟩ ∧
      (⟨"", [], "", "stop"⟩ : StreamResult).finishReason = "stop" :=
  ⟨rfl, C7_finish_reason_stop "openai" cbs0 tO0 [] ⟨"", [], "", "stop"⟩ rfl⟩

/-- C10: every provider tag outside the four known ones takes the `default`
arm of `processBuffer`'s switch, which is exactly the delta-SSE (`openai`)
decoder. -/
theorem C10_default_is_openai (provider : String) (buf : List Char)
    (h : provider ∉ (["openai", "deepseek", "anthropic", "gemini"] : List String)) :
    processBuffer provider buf = processBuffer "openai" buf := by
  simp only [List.mem_cons, not_or] at h
  obtain ⟨h1, h2, h3, h4, -⟩ := h
  simp [processBuffer, h1, h2, h3, h4]

/-- C10 witness: the unknown tag `mistral` decodes like `openai`. -/
theorem C10_witness :
    ("mistral" : String) ∉
        (["openai", "deepseek", "anthropic", "gemini"] : List String) ∧
      processBuffer "mistral" (("data: [DONE]\nx").toList) =
        processBuffer "openai" (("data: [DONE]\nx").toList) :=
  ⟨by decide, C10_default_is_openai "mistral" (("data: [DONE]\nx").toList) (by decide)⟩

/-- The event kinds a provider decoder can emit. -/
def Event.isTokenToolFinish : Event → Bool
  | .token _ => true
  | .tool_call _ => true
  | .finish _ => true
  | .thinking _ => false
  | .error _ => false

theorem openAIToolCalls_types (items : List JsValue) :
    ∀ e ∈ (openAIToolCalls items).1, e.isTokenToolFinish = true := by
  induction items with
  | nil => simp [openAIToolCalls]
  | cons tc rest ih =>
    intro e he
    cases h : jsProp tc "function" with
    | none => simp [openAIToolCalls, h] at he
    | some fn =>
      simp only [openAIToolCalls, h] at he
      rcases List.mem_append.mp he with h1 | h2
      · split at h1
        · rw [List.mem_singleton.mp h1]; rfl
        · cases h1
      · exact ih e h2

theorem openAIParsed_types (data : Json) :
    ∀ e ∈ openAIParsed data, e.isTokenToolFinish = true := by
  intro e he
  unfold openAIParsed at he
  try dsimp only at he
  repeat' split at he
  all_goals
    try simp only [List.mem_append, List.mem_singleton, List.not_mem_nil,
      or_false, false_or] at he
  all_goals
    repeat'
      first
      | (subst he; rfl)
      | exact openAIToolCalls_types _ e he
      | rcases he with he | he

theorem anthropicParsed_types (data : Json) :
    ∀ e ∈ anthropicParsed data, e.isTokenToolFinish = true := by
  intro e he
  unfold anthropicParsed at he
  try dsimp only at he
  repeat' split at he
  all_goals
    try simp only [List.mem_append, List.mem_singleton, List.not_mem_nil,
      or_false, false_or] at he
  all_goals
    repeat'
      first
      | (subst he; rfl)
      | rcases he with he | he

theorem geminiParts_types (items : List JsValue) :
    ∀ e ∈ (geminiParts items).1, e.isTokenToolFinish = true := by
  induction items with
  | nil => simp [geminiParts]
  | cons part rest ih =>
    intro e he
    cases h : jsProp part "text" with
    | none => simp [geminiParts, h] at he
    | some textV =>
      simp only [geminiParts, h] at he
      try dsimp only at he
      repeat' split at he
      all_goals
        try simp only [List.mem_append, List.mem_singleton, List.not_mem_nil,
          or_false, false_or] at he
      all_goals
        repeat'
          first
          | (subst he; rfl)
          | exact ih e he
          | rcases he with he | he

theorem geminiParsed_types (data : Json) :
    ∀ e ∈ geminiParsed data, e.isTokenToolFinish = true := by
  intro e he
  unfold geminiParsed at he
  try dsimp only at he
  repeat' split at he
  all_goals
    try simp only [List.mem_append, List.mem_singleton, List.not_mem_nil,
      or_false, false_or] at he
  all_goals
    repeat'
      first
      | (subst he; rfl)
      | exact geminiParts_types _ e he
      | rcases he with he | he

theorem openAILine_types (line : List Char) :
    ∀ e ∈ openAILine line, e.isTokenToolFinish = true := by
  intro e he
  unfold openAILine at he
  repeat' split at he
  all_goals first
    | cases he
    | exact openAIParsed_types _ e he

theorem anthropicLine_types (line : List Char) :
    ∀ e ∈ anthropicLine line, e.isTokenToolFinish = true := by
  intro e he
  unfold anthropicLine at he
  repeat' split at he
  all_goals first
    | cases he
    | exact anthropicParsed_types _ e he

theorem geminiLine_types (line : List Char) :
    ∀ e ∈ geminiLine line, e.isTokenToolFinish = true := by
  intro e he
  unfold geminiLine at he
  repeat' split at he
  all_goals first
    | cases he
    | exact geminiParsed_types _ e he

/-- Every event any decoder emits, for any provider tag and any buffer, is a
`token`, `tool_call` or `finish` event. -/
theorem processBuffer_types (provider : String) (buf : List Char) :
    ∀ e ∈ (processBuffer provider buf).1, e.isTokenToolFinish = true := by
  intro e he
  rw [processBuffer_eq] at he
  rcases List.mem_flatMap.mp he with ⟨line, -, hline⟩
  unfold providerLine at hline
  split_ifs at hline with h1 h2 h3
  · exact openAILine_types line e hline
  · exact anthropicLine_types line e hline
  · exact geminiLine_types line e hline
  · exact openAILine_types line e hline

/-- Trace entries ruled out by C9: `onThinking` invocations and the in-band
error abort marker. -/
def TraceEntry.isThinkingOrInband : TraceEntry → Bool
  | .thinkingCb _ => true
  | .inbandError _ => true
  | _ => false

theorem dispatchEvents_no_thinking (cbs : Cbs)
    (tO : List (String × JsValue) → Except JsError Json) (evs : List Event)
    (h : ∀ e ∈ evs, e.isTokenToolFinish = true) (st : LoopSt) :
    (dispatchEvents cbs tO evs st).st.thinkingContent = st.thinkingContent ∧
      ∀ t ∈ (dispatchEvents cbs tO evs st).tr, t.isThinkingOrInband = false := by
  induction evs generalizing st with
  | nil => exact ⟨rfl, by simp [dispatchEvents]⟩
  | cons ev rest ih =>
    have h' : ∀ e ∈ rest, e.isTokenToolFinish = true :=
      fun e m => h e (List.mem_cons_of_mem _ m)
    cases ev with
    | token c =>
      cases hcb : cbs.onTokenE c with
      | some e =>
        refine ⟨by simp [dispatchEvents, hcb], ?_⟩
        simp [dispatchEvents, hcb, TraceEntry.isThinkingOrInband]
      | none =>
        have hr := ih h' { st with fullContent := st.fullContent ++ jsToString c }
        refine ⟨by simp only [dispatchEvents, hcb]; exact hr.1, ?_⟩
        simp only [dispatchEvents, hcb]
        intro t ht
        rcases List.mem_cons.mp ht with rfl | hm
        · rfl
        · exact hr.2 t hm
    | thinking c =>
      exact absurd (h _ (List.mem_cons_self _ _)) (by simp [Event.isTokenToolFinish])
    | tool_call d =>
      cases hcb : cbs.onToolCallE d with
      | some e =>
        refine ⟨by simp [dispatchEvents, hcb], ?_⟩
        simp [dispatchEvents, hcb, TraceEntry.isThinkingOrInband]
      | none =>
        have hr := ih h' { st with toolCalls := st.toolCalls ++ [d] }
        refine ⟨by simp only [dispatchEvents, hcb]; exact hr.1, ?_⟩
        simp only [dispatchEvents, hcb]
        intro t ht
        rcases List.mem_cons.mp ht with rfl | hm
        · rfl
        · exact hr.2 t hm
    | finish r =>
      exact ih h' st
    | error d =>
      exact absurd (h _ (List.mem_cons_self _ _)) (by simp [Event.isTokenToolFinish])

theorem runLoop_no_thinking (provider : String) (cbs : Cbs)
    (tO : List (String × JsValue) → Except JsError Json)
    (reads : List ReadResult) (buf : List Char) (st : LoopSt) :
    (∀ res, (runLoop provider cbs tO reads buf st).2.2 = .ok res →
        res.thinkingContent = st.thinkingContent) ∧
      ∀ t ∈ (runLoop provider cbs tO reads buf st).1,
        t.isThinkingOrInband = false := by
  induction reads generalizing buf st with
  | nil =>
    refine ⟨fun res h => ?_, by simp [runLoop]⟩
    cases h
    rfl
  | cons r rest ih =>
    cases r with
    | readError e =>
      refine ⟨fun res h => ?_, by simp [runLoop]⟩
      simp only [runLoop] at h
      cases h
    | chunk s =>
      have hd := dispatchEvents_no_thinking cbs tO
        (processBuffer provider (buf ++ s)).1 (processBuffer_types _ _) st
      cases hr : (dispatchEvents cbs tO (processBuffer provider (buf ++ s)).1 st).raised with
      | some e =>
        refine ⟨fun res h => ?_, ?_⟩
        · simp only [runLoop, hr] at h
          cases h
        · simp only [runLoop, hr]
          exact hd.2
      | none =>
        have hrec := ih (processBuffer provider (buf ++ s)).2
          (dispatchEvents cbs tO (processBuffer provider (buf ++ s)).1 st).st
        refine ⟨fun res h => ?_, ?_⟩
        · simp only [runLoop, hr] at h
          rw [hrec.1 res h, hd.1]
        · simp only [runLoop, hr]
          intro t ht
          rcases List.mem_append.mp ht with hm | hm
          · exact hd.2 t hm
          · exact hrec.2 t hm

/-- C9: the three decoders emit only `token`, `tool_call` and `finish`
events — never `thinking` and never `error`; consequently every normally
completed `handleStream` result has an empty `thinkingContent`, `onThinking`
is never invoked, and the in-band-error abort branch is never reached from
decoded provider input (rejections can stem only from the transport or a
callback). -/
theorem C9_decoder_event_kinds (provider : String) (buf : List Char)
    (cbs : Cbs) (tO : List (String × JsValue) → Except JsError Json)
    (reads : List ReadResult) :
    (∀ e ∈ (processBuffer provider buf).1, e.isTokenToolFinish = true) ∧
      (∀ res, (handleStream provider cbs tO reads).2.2 = .ok res →
        res.thinkingContent = "") ∧
      ∀ t ∈ (handleStream provider cbs tO reads).1,
        t.isThinkingOrInband = false := by
  have hloop := runLoop_no_thinking provider cbs tO reads [] ⟨"", [], ""⟩
  refine ⟨processBuffer_types provider buf, fun res h => ?_, fun t ht => ?_⟩
  · unfold handleStream at h
    rcases hr : runLoop provider cbs tO reads [] ⟨"", [], ""⟩ with ⟨tr, pend, out⟩
    rw [hr] at h
    cases out with
    | ok st =>
      cases hc : cbs.onCompleteE ⟨st.fullContent, st.toolCalls, st.thinkingContent, "stop"⟩ with
      | some e0 => simp [hc] at h
      | none =>
        simp only [hc] at h
        cases h
        have := hloop.1 st (by rw [hr])
        simpa using this
    | error e0 => simp at h
  · unfold handleStream at ht
    rcases hr : runLoop provider cbs tO reads [] ⟨"", [], ""⟩ with ⟨tr, pend, out⟩
    rw [hr] at ht
    have htr : ∀ u ∈ tr, u.isThinkingOrInband = false := by
      intro u hu
      exact hloop.2 u (by rw [hr]; exact hu)
    cases out with
    | ok st =>
      cases hc : cbs.onCompleteE ⟨st.fullContent, st.toolCalls, st.thinkingContent, "stop"⟩ with
      | some e0 =>
        simp only [hc] at ht
        rcases List.mem_append.mp ht with hm | hm
        · exact htr t hm
        · rcases List.mem_cons.mp hm with rfl | hm2
          · rfl
          · rcases List.mem_singleton.mp hm2 with rfl
            rfl
      | none =>
        simp only [hc] at ht
        rcases List.mem_append.mp ht with hm | hm
        · exact htr t hm
        · rcases List.mem_singleton.mp hm with rfl
          rfl
    | error e0 =>
      simp only at ht
      rcases List.mem_append.mp ht with hm | hm
      · exact htr t hm
      · rcases List.mem_singleton.mp hm with rfl
        rfl

/-- C9 witness: a concrete delta-SSE stream emits a `token` of the allowed
kind and completes with an empty `thinkingContent`. -/
theorem C9_witness :
    Event.isTokenToolFinish (Event.token (JsValue.val (Json.str "Hi"))) = true ∧
      (⟨"Hi", [], "", "stop"⟩ : StreamResult).thinkingContent = "" := by
  constructor
  · refine (C9_decoder_event_kinds "openai"
      (("data: \x7b\"choices\":[\x7b\"delta\":\x7b\"content\":\"Hi\"\x7d\x7d]\x7d\n").toList)
      cbs0 tO0 []).1 (Event.token (JsValue.val (Json.str "Hi"))) ?_
    rw [show (processBuffer "openai"
        (("data: \x7b\"choices\":[\x7b\"delta\":\x7b\"content\":\"Hi\"\x7d\x7d]\x7d\n").toList)).1
        = [Event.token (JsValue.val (Json.str "Hi"))] from rfl]
    exact List.mem_singleton.mpr rfl
  · exact (C9_decoder_event_kinds "openai" [] cbs0 tO0
      [ReadResult.chunk
        (("data: \x7b\"choices\":[\x7b\"delta\":\x7b\"content\":\"Hi\"\x7d\x7d]\x7d\n").toList)]).2.1
      ⟨"Hi", [], "", "stop"⟩ rfl

/-- `onError` invocations, which appear only in `handleStream`'s catch path. -/
def TraceEntry.isErrorCb : TraceEntry → Bool
  | .errorCb _ => true
  | _ => false

theorem dispatchEvents_no_errorCb (cbs : Cbs)
    (tO : List (String × JsValue) → Except JsError Json)
    (evs : List Event) (st : LoopSt) :
    ∀ t ∈ (dispatchEvents cbs tO evs st).tr, t.isErrorCb = false := by
  induction evs generalizing st with
  | nil => simp [dispatchEvents]
  | cons ev rest ih =>
    intro t ht
    cases ev with
    | token c =>
      cases hcb : cbs.onTokenE c with
      | some e => simp [dispatchEvents, hcb] at ht; simp [ht, TraceEntry.isErrorCb]
      | none =>
        simp only [dispatchEvents, hcb] at ht
        rcases List.mem_cons.mp ht with rfl | hm
        · rfl
        · exact ih _ t hm
    | thinking c =>
      cases hcb : cbs.onThinkingE (formatThinkingContent c) with
      | some e => simp [dispatchEvents, hcb] at ht; simp [ht, TraceEntry.isErrorCb]
      | none =>
        simp only [dispatchEvents, hcb] at ht
        rcases List.mem_cons.mp ht with rfl | hm
        · rfl
        · exact ih _ t hm
    | tool_call d =>
      cases hcb : cbs.onToolCallE d with
      | some e => simp [dispatchEvents, hcb] at ht; simp [ht, TraceEntry.isErrorCb]
      | none =>
        simp only [dispatchEvents, hcb] at ht
        rcases List.mem_cons.mp ht with rfl | hm
        · rfl
        · exact ih _ t hm
    | finish r => exact ih st t ht
    | error d =>
      simp [dispatchEvents] at ht
      simp [ht, TraceEntry.isErrorCb]

theorem runLoop_no_errorCb (provider : String) (cbs : Cbs)
    (tO : List (String × JsValue) → Except JsError Json)
    (reads : List ReadResult) (buf : List Char) (st : LoopSt) :
    ∀ t ∈ (runLoop provider cbs tO reads buf st).1, t.isErrorCb = false := by
  induction reads generalizing buf st with
  | nil => simp [runLoop]
  | cons r rest ih =>
    cases r with
    | readError e => simp [runLoop]
    | chunk s =>
      intro t ht
      cases hr : (dispatchEvents cbs tO (processBuffer provider (buf ++ s)).1 st).raised with
      | some e =>
        simp only [runLoop, hr] at ht
        exact dispatchEvents_no_errorCb cbs tO _ st t ht
      | none =>
        simp only [runLoop, hr] at ht
        rcases List.mem_append.mp ht with hm | hm
        · exact dispatchEvents_no_errorCb cbs tO _ st t hm
        · exact ih _ _ t hm

/-- C4: whenever an exception is raised during a `handleStream` run — by a
transport read, by a callback invoked in the read loop, or by `onComplete` —
the method catches it, wraps it into a stream-parse-failure unless it is
already a recognized `StreamError`, invokes `onError` exactly once with that
(possibly wrapped) error, and rejects the returned promise with that same
error. -/
theorem C4_error_reporting (provider : String) (cbs : Cbs)
    (tO : List (String × JsValue) → Except JsError Json)
    (reads : List ReadResult) (e0 : JsError)
    (h : (runLoop provider cbs tO reads [] ⟨"", [], ""⟩).2.2 = .error e0 ∨
      ∃ st, (runLoop provider cbs tO reads [] ⟨"", [], ""⟩).2.2 = .ok st ∧
        cbs.onCompleteE
          ⟨st.fullContent, st.toolCalls, st.thinkingContent, "stop"⟩ = some e0) :
    (handleStream provider cbs tO reads).2.2 =
        .error (if isStreamError e0 then e0 else wrapError e0) ∧
      isStreamError (if isStreamError e0 then e0 else wrapError e0) = true ∧
      (handleStream provider cbs tO reads).1.filter TraceEntry.isErrorCb =
        [.errorCb (if isStreamError e0 then e0 else wrapError e0)] := by
  have hwrap : isStreamError (if isStreamError e0 then e0 else wrapError e0) = true := by
    cases he : isStreamError e0 with
    | true => simp [he]
    | false => simp [he, wrapError, createStreamError, isStreamError]
  have hnocb := runLoop_no_errorCb provider cbs tO reads [] ⟨"", [], ""⟩
  unfold handleStream
  rcases hr : runLoop provider cbs tO reads [] ⟨"", [], ""⟩ with ⟨tr, pend, out⟩
  rw [hr] at h hnocb
  have htr : tr.filter TraceEntry.isErrorCb = [] := by
    rw [List.filter_eq_nil_iff]
    intro t ht
    simp [hnocb t ht]
  rcases h with hl | ⟨st, hok, hcb⟩
  · cases out with
    | ok st => cases hl
    | error e1 =>
      cases hl
      refine ⟨rfl, hwrap, ?_⟩
      simp [List.filter_append, htr, TraceEntry.isErrorCb]
  · cases out with
    | error e1 => cases hok
    | ok st1 =>
      cases hok
      refine ⟨by simp [hcb], hwrap, ?_⟩
      simp [hcb, List.filter_append, htr, TraceEntry.isErrorCb]

/-- C4 witness: a throwing transport read is wrapped, reported once via
`onError`, and the run rejects with the same wrapped error. -/
theorem C4_witness :
    (handleStream "openai" cbs0 tO0
        [ReadResult.readError (JsError.other "boom" "tr")]).2.2 =
        .error (if isStreamError (JsError.other "boom" "tr")
          then JsError.other "boom" "tr"
          else wrapError (JsError.other "boom" "tr")) ∧
      isStreamError (if isStreamError (JsError.other "boom" "tr")
          then JsError.other "boom" "tr"
          else wrapError (JsError.other "boom" "tr")) = true ∧
      (handleStream "openai" cbs0 tO0
          [ReadResult.readError (JsError.other "boom" "tr")]).1.filter
          TraceEntry.isErrorCb =
        [.errorCb (if isStreamError (JsError.other "boom" "tr")
          then JsError.other "boom" "tr"
          else wrapError (JsError.other "boom" "tr"))] :=
  C4_error_reporting "openai" cbs0 tO0
    [ReadResult.readError (JsError.other "boom" "tr")]
    (JsError.other "boom" "tr") (Or.inl rfl)

/-- The dispatch loop's accumulators, trace and raised exception do not
depend on the tool promises' outcomes (the loop never reads them). -/
theorem dispatchEvents_toolOutcome_irrel (cbs : Cbs)
    (f g : List (String × JsValue) → Except JsError Json)
    (evs : List Event) (st : LoopSt) :
    (dispatchEvents cbs f evs st).st = (dispatchEvents cbs g evs st).st ∧
      (dispatchEvents cbs f evs st).tr = (dispatchEvents cbs g evs st).tr ∧
      (dispatchEvents cbs f evs st).raised =
        (dispatchEvents cbs g evs st).raised := by
  induction evs generalizing st with
  | nil => exact ⟨rfl, rfl, rfl⟩
  | cons ev rest ih =>
    cases ev with
    | token c =>
      cases hcb : cbs.onTokenE c with
      | some e => simp [dispatchEvents, hcb]
      | none =>
        have hr := ih { st with fullContent := st.fullContent ++ jsToString c }
        simp only [dispatchEvents, hcb]
        exact ⟨hr.1, by rw [hr.2.1], hr.2.2⟩
    | thinking c =>
      cases hcb : cbs.onThinkingE (formatThinkingContent c) with
      | some e => simp [dispatchEvents, hcb]
      | none =>
        have hr := ih { st with
          thinkingContent := st.thinkingContent ++ jsToString c }
        simp only [dispatchEvents, hcb]
        exact ⟨hr.1, by rw [hr.2.1], hr.2.2⟩
    | tool_call d =>
      cases hcb : cbs.onToolCallE d with
      | some e => simp [dispatchEvents, hcb]
      | none =>
        have hr := ih { st with toolCalls := st.toolCalls ++ [d] }
        simp only [dispatchEvents, hcb]
        exact ⟨hr.1, by rw [hr.2.1], hr.2.2⟩
    | finish r => exact ih st
    | error d => simp [dispatchEvents]

/-- The dispatch loop's launched promises are exactly the outcomes of the
tool calls it appended, in order. -/
theorem dispatchEvents_pend (cbs : Cbs)
    (f : List (String × JsValue) → Except JsError Json)
    (evs : List Event) (st : LoopSt) :
    ∃ ds, (dispatchEvents cbs f evs st).st.toolCalls = st.toolCalls ++ ds ∧
      (dispatchEvents cbs f evs st).pend = ds.map f := by
  induction evs generalizing st with
  | nil => exact ⟨[], by simp [dispatchEvents]⟩
  | cons ev rest ih =>
    cases ev with
    | token c =>
      cases hcb : cbs.onTokenE c with
      | some e => exact ⟨[], by simp [dispatchEvents, hcb]⟩
      | none =>
        obtain ⟨ds, h1, h2⟩ := ih { st with fullContent := st.fullContent ++ jsToString c }
        exact ⟨ds, by simp only [dispatchEvents, hcb]; exact ⟨h1, h2⟩⟩
    | thinking c =>
      cases hcb : cbs.onThinkingE (formatThinkingContent c) with
      | some e => exact ⟨[], by simp [dispatchEvents, hcb]⟩
      | none =>
        obtain ⟨ds, h1, h2⟩ := ih { st with
          thinkingContent := st.thinkingContent ++ jsToString c }
        exact ⟨ds, by simp only [dispatchEvents, hcb]; exact ⟨h1, h2⟩⟩
    | tool_call d =>
      cases hcb : cbs.onToolCallE d with
      | some e =>
        exact ⟨[d], by simp [dispatchEvents, hcb]⟩
      | none =>
        obtain ⟨ds, h1, h2⟩ := ih { st with toolCalls := st.toolCalls ++ [d] }
        refine ⟨d :: ds, ?_, ?_⟩
        · simp only [dispatchEvents, hcb]
          rw [h1]
          simp
        · simp only [dispatchEvents, hcb, List.map_cons]
          rw [h2]
    | finish r => exact ih st
    | error d => exact ⟨[], by simp [dispatchEvents]⟩

/-- The read loop's trace and settled outcome do not depend on the tool
promises' outcomes, and the launched promises are the outcomes of exactly
the accumulated tool calls. -/
theorem runLoop_toolOutcome_irrel (provider : String) (cbs : Cbs)
    (f g : List (String × JsValue) → Except JsError Json)
    (reads : List ReadResult) (buf : List Char) (st : LoopSt) :
    (runLoop provider cbs f reads buf st).1 =
        (runLoop provider cbs g reads buf st).1 ∧
      (runLoop provider cbs f reads buf st).2.2 =
        (runLoop provider cbs g reads buf st).2.2 ∧
      ∃ ds, (runLoop provider cbs f reads buf st).2.1 = ds.map f ∧
        ∀ st1, (runLoop provider cbs f reads buf st).2.2 = .ok st1 →
          st1.toolCalls = st.toolCalls ++ ds := by
  induction reads generalizing buf st with
  | nil =>
    refine ⟨rfl, rfl, [], rfl, fun st1 h => ?_⟩
    cases h
    simp
  | cons r rest ih =>
    cases r with
    | readError e =>
      refine ⟨rfl, rfl, [], rfl, fun st1 h => ?_⟩
      simp only [runLoop] at h
      cases h
    | chunk s =>
      have hdi := dispatchEvents_toolOutcome_irrel cbs f g
        (processBuffer provider (buf ++ s)).1 st
      obtain ⟨ds1, hds1, hp1⟩ := dispatchEvents_pend cbs f
        (processBuffer provider (buf ++ s)).1 st
      cases hrf : (dispatchEvents cbs f (processBuffer provider (buf ++ s)).1 st).raised with
      | some e =>
        have hrg : (dispatchEvents cbs g (processBuffer provider (buf ++ s)).1 st).raised = some e := by
          rw [← hdi.2.2, hrf]
        refine ⟨?_, ?_, ds1, ?_, fun st1 h => ?_⟩
        · simp only [runLoop, hrf, hrg]
          exact hdi.2.1
        · simp only [runLoop, hrf, hrg]
        · simp only [runLoop, hrf]
          exact hp1
        · simp only [runLoop, hrf] at h
          cases h
      | none =>
        have hrg : (dispatchEvents cbs g (processBuffer provider (buf ++ s)).1 st).raised = none := by
          rw [← hdi.2.2, hrf]
        have hrec := ih (processBuffer provider (buf ++ s)).2
          (dispatchEvents cbs f (processBuffer provider (buf ++ s)).1 st).st
        obtain ⟨ds2, hds2, hok2⟩ := hrec.2.2
        refine ⟨?_, ?_, ds1 ++ ds2, ?_, fun st1 h => ?_⟩
        · simp only [runLoop, hrf, hrg]
          rw [hdi.2.1, hrec.1, hdi.1]
        · simp only [runLoop, hrf, hrg]
          rw [hrec.2.1, hdi.1]
        · simp only [runLoop, hrf]
          rw [hp1, hds2, List.map_append]
        · simp only [runLoop, hrf] at h
          rw [hok2 st1 h, hds1]
          simp

/-- C5: `onToolCall` is dispatched fire-and-continue — the read loop never
awaits the tool's outcome.  The whole callback trace (later `onToken`
invocations included) and the settled result are identical whatever outcome
every launched tool promise eventually has, and the launched promises are
exactly the accumulated tool calls' outcomes, never joined by the loop. -/
theorem C5_fire_and_continue (provider : String) (cbs : Cbs)
    (f g : List (String × JsValue) → Except JsError Json)
    (reads : List ReadResult) :
    (handleStream provider cbs f reads).1 =
        (handleStream provider cbs g reads).1 ∧
      (handleStream provider cbs f reads).2.2 =
        (handleStream provider cbs g reads).2.2 ∧
      ∀ res, (handleStream provider cbs f reads).2.2 = .ok res →
        (handleStream provider cbs f reads).2.1 = res.toolCalls.map f := by
  have h := runLoop_toolOutcome_irrel provider cbs f g reads [] ⟨"", [], ""⟩
  obtain ⟨ds, hds, hok⟩ := h.2.2
  unfold handleStream
  rcases hrf : runLoop provider cbs f reads [] ⟨"", [], ""⟩ with ⟨trf, pendf, outf⟩
  rcases hrg : runLoop provider cbs g reads [] ⟨"", [], ""⟩ with ⟨trg, pendg, outg⟩
  rw [hrf, hrg] at h
  rw [hrf] at hds hok
  obtain ⟨htr, hout, -⟩ := h
  dsimp only at htr hout hds hok ⊢
  subst htr hout
  cases outf with
  | ok st =>
    have hst := hok st rfl
    simp only [List.nil_append] at hst
    cases hc : cbs.onCompleteE ⟨st.fullContent, st.toolCalls, st.thinkingContent, "stop"⟩ with
    | some e0 =>
      simp only [hc]
      refine ⟨trivial, trivial, fun res hres => ?_⟩
      cases hres
    | none =>
      simp only [hc]
      refine ⟨trivial, trivial, fun res hres => ?_⟩
      cases hres
      rw [hds, hst]
  | error e0 =>
    refine ⟨rfl, rfl, fun res hres => ?_⟩
    simp only at hres
    cases hres

/-- A tool outcome that rejects, standing for a slow or failing tool (for
concrete runs). -/
def c5f : List (String × JsValue) → Except JsError Json :=
  fun _ => .error (.other "tool failed" "")

/-- A one-chunk delta-SSE transport carrying a tool call and then a token
(for concrete runs). -/
def c5reads : List ReadResult :=
  [.chunk (("data: \x7b\"choices\":[\x7b\"delta\":\x7b\"tool_calls\":[\x7b\"id\":\"1\",\"function\":\x7b\"name\":\"f\",\"arguments\":\"x\"\x7d\x7d]\x7d\x7d]\x7d\ndata: \x7b\"choices\":[\x7b\"delta\":\x7b\"content\":\"Hi\"\x7d\x7d]\x7d\n").toList)]

/-- The result of running `c5reads` (for concrete runs). -/
def c5res : StreamResult :=
  ⟨"Hi",
    [[("id", .val (.str "1")), ("name", .val (.str "f")),
      ("arguments", .val (.str "x"))]],
    "", "stop"⟩

/-- C5 witness: on a concrete stream with one tool call and a later token,
the run completes (the failing tool outcome notwithstanding) and the
launched promise list is the accumulated tool call's outcome. -/
theorem C5_witness :
    (handleStream "openai" cbs0 c5f c5reads).2.2 = .ok c5res ∧
      (handleStream "openai" cbs0 c5f c5reads).2.1 = c5res.toolCalls.map c5f :=
  ⟨rfl, (C5_fire_and_continue "openai" cbs0 c5f tO0 c5reads).2.2 c5res rfl⟩

/-- Field lookup in a tool call's data object. -/
def toolField (tc : List (String × JsValue)) (k : String) : JsValue :=
  match tc.find? (fun p => p.1 == k) with
  | some p => p.2
  | none => .undefined

/-- The `onToolCall` closure `handleStreamingResponse` registers (within
lines 309-355 of `src/agentify/core/Agentify.js`): surface the call to the
caller, then, if the registry knows the tool, execute it; success returns
the result, and a thrown execution error is logged (`console.error`) and
re-raised out of the closure.  The tool registry (`ToolManager`, not among
the staged sources) is modelled from the spec's interface as the pair
`hasTool`/`executeTool`; `.ok none` is the closure's `undefined` return for
an unknown tool. -/
def streamingOnToolCall (hasTool : JsValue → Bool)
    (executeTool : JsValue → JsValue → Except JsError Json)
    (tc : List (String × JsValue)) : Except JsError (Option Json) :=
  if hasTool (toolField tc "name") then
    match executeTool (toolField tc "name") (toolField tc "arguments") with
    | .ok r => .ok (some r)
    | .error e => .error e
  else .ok none

/-- One iteration of `handleNonStreamingResponse`'s tool loop (within
lines 452-490 of `src/agentify/core/Agentify.js`): the execution error is caught
and only logged, so the step itself never raises; the returned record keeps
what happened (`none` = unknown tool, skipped). -/
def nonStreamingToolStep (hasTool : JsValue → Bool)
    (executeTool : JsValue → JsValue → Except JsError Json)
    (tc : List (String × JsValue)) :
    Except JsError (Option (Except JsError Json)) :=
  if hasTool (toolField tc "name") then
    match executeTool (toolField tc "name") (toolField tc "arguments") with
    | .ok r => .ok (some (.ok r))
    | .error e => .ok (some (.error e))
  else .ok none

/-- The whole tool loop of `handleNonStreamingResponse`, in the exception
monad: one step per decoded tool call, in order. -/
def handleNonStreamingToolCalls (hasTool : JsValue → Bool)
    (executeTool : JsValue → JsValue → Except JsError Json) :
    List (List (String × JsValue)) →
      Except JsError (List (Option (Except JsError Json)))
  | [] => .ok []
  | tc :: rest => do
    let v ← nonStreamingToolStep hasTool executeTool tc
    let vs ← handleNonStreamingToolCalls hasTool executeTool rest
    return v :: vs

theorem nonStreamingToolStep_ok (hasTool : JsValue → Bool)
    (executeTool : JsValue → JsValue → Except JsError Json)
    (tc : List (String × JsValue)) :
    ∃ v, nonStreamingToolStep hasTool executeTool tc = .ok v := by
  unfold nonStreamingToolStep
  split_ifs
  · cases executeTool (toolField tc "name") (toolField tc "arguments") <;>
      exact ⟨_, rfl⟩
  · exact ⟨_, rfl⟩

/-- C8: a tool-execution error is re-raised out of the streaming path's
`onToolCall` closure, while the non-streaming orchestration path catches and
only logs every execution error, so it processes all the response's tool
calls and completes normally. -/
theorem C8_tool_error_paths (hasTool : JsValue → Bool)
    (executeTool : JsValue → JsValue → Except JsError Json)
    (tc : List (String × JsValue)) (tcs : List (List (String × JsValue)))
    (e : JsError)
    (hht : hasTool (toolField tc "name") = true)
    (hex : executeTool (toolField tc "name") (toolField tc "arguments") =
      .error e) :
    streamingOnToolCall hasTool executeTool tc = .error e ∧
      ∃ outs, handleNonStreamingToolCalls hasTool executeTool tcs = .ok outs ∧
        outs.length = tcs.length := by
  constructor
  · simp [streamingOnToolCall, hht, hex]
  · induction tcs with
    | nil => exact ⟨[], rfl, rfl⟩
    | cons t ts ih =>
      obtain ⟨outs, houts, hlen⟩ := ih
      obtain ⟨v, hv⟩ := nonStreamingToolStep_ok hasTool executeTool t
      refine ⟨v :: outs, ?_, by simp [hlen]⟩
      simp only [handleNonStreamingToolCalls, hv, houts]
      rfl

/-- C8 witness: a registry whose execution always fails. -/
theorem C8_witness :
    streamingOnToolCall (fun _ => true)
        (fun _ _ => .error (.other "tool failed" ""))
        [("name", .val (.str "f")), ("arguments", .val (.str "x"))] =
        .error (.other "tool failed" "") ∧
      ∃ outs, handleNonStreamingToolCalls (fun _ => true)
          (fun _ _ => .error (.other "tool failed" ""))
          [[("name", .val (.str "f")), ("arguments", .val (.str "x"))],
            [("name", .val (.str "g")), ("arguments", .undefined)]] = .ok outs ∧
        outs.length =
          ([[("name", JsValue.val (.str "f")), ("arguments", JsValue.val (.str "x"))],
            [("name", JsValue.val (.str "g")), ("arguments", JsValue.undefined)]] :
              List (List (String × JsValue))).length :=
  C8_tool_error_paths (fun _ => true)
    (fun _ _ => .error (.other "tool failed" ""))
    [("name", .val (.str "f")), ("arguments", .val (.str "x"))]
    [[("name", .val (.str "f")), ("arguments", .val (.str "x"))],
      [("name", .val (.str "g")), ("arguments", .undefined)]]
    (.other "tool failed" "") rfl rfl

/-- The ordered field names of a tool call's data object. -/
def dataKeys (d : List (String × JsValue)) : List String := d.map Prod.fst

theorem openAIToolCalls_keys (items : List JsValue) :
    ∀ d, Event.tool_call d ∈ (openAIToolCalls items).1 →
      dataKeys d = ["id", "name", "arguments"] := by
  induction items with
  | nil => simp [openAIToolCalls]
  | cons tc rest ih =>
    intro d hd
    cases h : jsProp tc "function" with
    | none => simp [openAIToolCalls, h] at hd
    | some fn =>
      simp only [openAIToolCalls, h] at hd
      rcases List.mem_append.mp hd with h1 | h2
      · split at h1
        · simp only [List.mem_singleton, Event.tool_call.injEq] at h1
          subst h1
          rfl
        · cases h1
      · exact ih d h2

theorem geminiParts_keys (items : List JsValue) :
    ∀ d, Event.tool_call d ∈ (geminiParts items).1 →
      dataKeys d = ["name", "arguments"] := by
  induction items with
  | nil => simp [geminiParts]
  | cons part rest ih =>
    intro d hd
    cases h : jsProp part "text" with
    | none => simp [geminiParts, h] at hd
    | some textV =>
      simp only [geminiParts, h] at hd
      try dsimp only at hd
      repeat' split at hd
      all_goals
        try simp only [List.mem_append, List.mem_singleton, List.not_mem_nil,
          or_false, false_or] at hd
      all_goals
        repeat'
          first
          | exact ih d hd
          | (simp only [Event.tool_call.injEq] at hd; subst hd; rfl)
          | rcases hd with hd | hd

theorem openAIParsed_keys (data : Json) :
    ∀ d, Event.tool_call d ∈ openAIParsed data →
      dataKeys d = ["id", "name", "arguments"] := by
  intro d hd
  unfold openAIParsed at hd
  try dsimp only at hd
  repeat' split at hd
  all_goals
    try simp only [List.mem_append, List.mem_singleton, List.not_mem_nil,
      or_false, false_or] at hd
  all_goals
    repeat'
      first
      | exact openAIToolCalls_keys _ d hd
      | (simp only [Event.tool_call.injEq] at hd; subst hd; rfl)
      | rcases hd with hd | hd

theorem anthropicParsed_keys (data : Json) :
    ∀ d, Event.tool_call d ∈ anthropicParsed data →
      dataKeys d = ["id", "name", "input"] := by
  intro d hd
  unfold anthropicParsed at hd
  try dsimp only at hd
  repeat' split at hd
  all_goals
    try simp only [List.mem_append, List.mem_singleton, List.not_mem_nil,
      or_false, false_or] at hd
  all_goals
    repeat'
      first
      | (simp only [Event.tool_call.injEq] at hd; subst hd; rfl)
      | rcases hd with hd | hd

theorem geminiParsed_keys (data : Json) :
    ∀ d, Event.tool_call d ∈ geminiParsed data →
      dataKeys d = ["name", "arguments"] := by
  intro d hd
  unfold geminiParsed at hd
  try dsimp only at hd
  repeat' split at hd
  all_goals
    try simp only [List.mem_append, List.mem_singleton, List.not_mem_nil,
      or_false, false_or] at hd
  all_goals
    repeat'
      first
      | exact geminiParts_keys _ d hd
      | (simp only [Event.tool_call.injEq] at hd; subst hd; rfl)
      | rcases hd with hd | hd

theorem openAILine_keys (line : List Char) :
    ∀ d, Event.tool_call d ∈ openAILine line →
      dataKeys d = ["id", "name", "arguments"] := by
  intro d hd
  unfold openAILine at hd
  repeat' split at hd
  all_goals first
    | cases hd
    | exact openAIParsed_keys _ d hd

theorem anthropicLine_keys (line : List Char) :
    ∀ d, Event.tool_call d ∈ anthropicLine line →
      dataKeys d = ["id", "name", "input"] := by
  intro d hd
  unfold anthropicLine at hd
  repeat' split at hd
  all_goals first
    | cases hd
    | exact anthropicParsed_keys _ d hd

theorem geminiLine_keys (line : List Char) :
    ∀ d, Event.tool_call d ∈ geminiLine line →
      dataKeys d = ["name", "arguments"] := by
  intro d hd
  unfold geminiLine at hd
  repeat' split at hd
  all_goals first
    | cases hd
    | exact geminiParsed_keys _ d hd

/-- A typed-SSE (Anthropic) buffer with one complete `tool_use` block (for
concrete runs). -/
def c3buf : List Char :=
  ("data: \x7b\"type\":\"content_block_start\",\"content_block\":\x7b\"type\":\"tool_use\",\"id\":\"t1\",\"name\":\"calc\",\"input\":\x7b\"x\":1\x7d\x7d\x7d\n").toList

/-- The data object the Anthropic decoder emits for `c3buf`'s tool use. -/
def c3data : List (String × JsValue) :=
  [("id", .val (.str "t1")), ("name", .val (.str "calc")),
   ("input", .val (.obj [("x", .num "1")]))]

/-- C3 counterexample: the Anthropic decoder's `tool_call` event carries the
call's arguments under `input`, not under an `arguments` field — the emitted
data object has no `arguments` key at all, refuting the claim that every
decoder's `tool_call` carries its arguments under `arguments`. -/
theorem C3_counterexample :
    (processAnthropicBuffer c3buf).1 = [Event.tool_call c3data] ∧
      c3data.find? (fun p => p.1 == "arguments") = none ∧
      dataKeys c3data = ["id", "name", "input"] :=
  ⟨rfl, rfl, rfl⟩

/-- C3 (amended): every `tool_call` event's data object has exactly the
ordered fields `id`, `name`, `arguments` from the delta-SSE decoder, `id`,
`name`, `input` from the typed-SSE (Anthropic) decoder, and `name`,
`arguments` from the NDJSON (Gemini) decoder (values taken verbatim from
the payload and possibly `undefined`). -/
theorem C3_tool_call_fields (buf : List Char) :
    (∀ d, Event.tool_call d ∈ (processOpenAIBuffer buf).1 →
        dataKeys d = ["id", "name", "arguments"]) ∧
      (∀ d, Event.tool_call d ∈ (processAnthropicBuffer buf).1 →
        dataKeys d = ["id", "name", "input"]) ∧
      ∀ d, Event.tool_call d ∈ (processGeminiBuffer buf).1 →
        dataKeys d = ["name", "arguments"] := by
  refine ⟨fun d hd => ?_, fun d hd => ?_, fun d hd => ?_⟩
  · rcases List.mem_flatMap.mp hd with ⟨line, -, hline⟩
    exact openAILine_keys line d hline
  · rcases List.mem_flatMap.mp hd with ⟨line, -, hline⟩
    exact anthropicLine_keys line d hline
  · rcases List.mem_flatMap.mp hd with ⟨line, -, hline⟩
    exact geminiLine_keys line d hline

/-- C3 witness: concrete tool calls decoded by each provider carry exactly
the amended field lists. -/
theorem C3_witness :
    dataKeys [("id", .val (.str "1")), ("name", .val (.str "f")),
        ("arguments", .val (.str "x"))] = ["id", "name", "arguments"] ∧
      dataKeys c3data = ["id", "name", "input"] := by
  constructor
  · refine (C3_tool_call_fields
      (("data: \x7b\"choices\":[\x7b\"delta\":\x7b\"tool_calls\":[\x7b\"id\":\"1\",\"function\":\x7b\"name\":\"f\",\"arguments\":\"x\"\x7d\x7d]\x7d\x7d]\x7d\n").toList)).1
      [("id", .val (.str "1")), ("name", .val (.str "f")),
        ("arguments", .val (.str "x"))] ?_
    rw [show (processOpenAIBuffer
      (("data: \x7b\"choices\":[\x7b\"delta\":\x7b\"tool_calls\":[\x7b\"id\":\"1\",\"function\":\x7b\"name\":\"f\",\"arguments\":\"x\"\x7d\x7d]\x7d\x7d]\x7d\n").toList)).1
      = [Event.tool_call [("id", .val (.str "1")), ("name", .val (.str "f")),
          ("arguments", .val (.str "x"))]] from rfl]
    exact List.mem_singleton.mpr rfl
  · refine (C3_tool_call_fields c3buf).2.1 c3data ?_
    rw [show (processAnthropicBuffer c3buf).1 = [Event.tool_call c3data] from rfl]
    exact List.mem_singleton.mpr rfl

/-! ### C2: the delta-SSE decode pass against the spec's sentence

`openAILineClaimed` below follows the claim's words (a second definition for
the refinement comparison): one token for a truthy content, one `tool_call`
for *each* entry carrying a function payload, one finish for a truthy
`finish_reason` — with no exception semantics.  The code deviates when a
`null` entry (or a truthy non-iterable `tool_calls`) makes the per-line
`try` block abort mid-line. -/

/-- Is a parsed JSON value `null`? -/
def jsonIsNull : Json → Bool
  | .null => true
  | _ => false

/-- One `tool_calls` entry's events as the claim states them: an entry
carrying a (truthy) function payload yields one `tool_call` event with the
entry's `id` and the payload's `name` and raw `arguments`. -/
def claimedToolCall (tc : JsValue) : List Event :=
  if truthy ((jsProp tc "function").getD .undefined) then
    [Event.tool_call
      [("id", (jsProp tc "id").getD .undefined),
       ("name", jsOptProp ((jsProp tc "function").getD .undefined) "name"),
       ("arguments", jsOptProp ((jsProp tc "function").getD .undefined) "arguments")]]
  else []

/-- The events of one successfully parsed delta-SSE object as the claim
states them. -/
def openAIParsedClaimed (data : Json) : List Event :=
  match jsProp (.val data) "choices" with
  | none => []
  | some choices =>
    if truthy choices && truthy (jsIndex choices 0) then
      match jsIndex choices 0 with
      | .undefined => []
      | .val choice =>
        let content := jsOptProp (jsPropNN choice "delta") "content"
        let tokenEvs := if truthy content then [Event.token content] else []
        let reason := jsPropNN choice "finish_reason"
        let finishEvs := if truthy reason then [Event.finish reason] else []
        let tcs := jsOptProp (jsPropNN choice "delta") "tool_calls"
        let tcEvs :=
          match jsIter tcs with
          | some entries => entries.flatMap claimedToolCall
          | none => []
        tokenEvs ++ tcEvs ++ finishEvs
    else []

/-- One delta-SSE line's events as the claim states them. -/
def openAILineClaimed (line : List Char) : List Event :=
  if (jsTrim line).isEmpty ∨ jsTrim line = ("data: [DONE]").toList then []
  else if dataTag.isPrefixOf line then
    match parseJson (line.drop 6) with
    | none => []
    | some data => openAIParsedClaimed data
  else []

/-- The side condition under which a delta-SSE line behaves exactly as the
claim's sentence describes: when the parsed object's
`choices[0].delta.tool_calls` is truthy, it is an array without `null`
entries. -/
def benignToolCallsJson (data : Json) : Bool :=
  match jsProp (.val data) "choices" with
  | none => true
  | some choices =>
    if truthy choices && truthy (jsIndex choices 0) then
      match jsIndex choices 0 with
      | .undefined => true
      | .val choice =>
        let tcs := jsOptProp (jsPropNN choice "delta") "tool_calls"
        if truthy tcs then
          match tcs with
          | .val (.arr entries) => entries.all (fun j => !jsonIsNull j)
          | _ => false
        else true
    else true

/-- The per-line form of the side condition. -/
def benignToolCalls (line : List Char) : Bool :=
  match parseJson (line.drop 6) with
  | none => true
  | some data => benignToolCallsJson data

/-- The line `data: {"choices":[{"delta":{"tool_calls":[null,{"function":
{"name":"f","arguments":"x"}}]},"finish_reason":"stop"}]}` (braces written
out), whose first `tool_calls` entry is `null`. -/
def c2line : List Char :=
  ("data: \x7b\"choices\":[\x7b\"delta\":\x7b\"tool_calls\":[null,\x7b\"function\":\x7b\"name\":\"f\",\"arguments\":\"x\"\x7d\x7d]\x7d,\"finish_reason\":\"stop\"\x7d]\x7d").toList

/-- C2 counterexample: on `c2line`, the parsed object has a `tool_calls`
entry carrying a function payload and a `finish_reason`, so the claim
promises one `tool_call` and one `finish` event — but the decoder emits
nothing: reading `.function` on the `null` first entry throws, and the
per-line catch drops the rest of the line. -/
theorem C2_counterexample :
    openAILine c2line = [] ∧
      openAILineClaimed c2line =
        [Event.tool_call
          [("id", .undefined), ("name", .val (.str "f")),
            ("arguments", .val (.str "x"))],
          Event.finish (.val (.str "stop"))] ∧
      openAILine c2line ≠ openAILineClaimed c2line := by
  refine ⟨rfl, rfl, ?_⟩
  intro h
  have h0 : (openAILine c2line).length = 0 := rfl
  have h2 : (openAILineClaimed c2line).length = 2 := rfl
  rw [h, h2] at h0
  cases h0

theorem openAIToolCalls_of_no_throw (items : List JsValue)
    (h : ∀ tc ∈ items, jsProp tc "function" ≠ none) :
    openAIToolCalls items = (items.flatMap claimedToolCall, true) := by
  induction items with
  | nil => rfl
  | cons tc rest ih =>
    cases hf : jsProp tc "function" with
    | none => exact absurd hf (h tc (List.mem_cons_self tc rest))
    | some fn =>
      have hr := ih (fun u m => h u (List.mem_cons_of_mem _ m))
      simp only [openAIToolCalls, hf, hr, List.flatMap_cons]
      simp [claimedToolCall, hf]

theorem claimed_tcEvs_of_falsy (tcs : JsValue) (h : truthy tcs = false) :
    (match jsIter tcs with
     | some entries => entries.flatMap claimedToolCall
     | none => []) = [] := by
  cases tcs with
  | undefined => rfl
  | val j =>
    cases j with
    | null => rfl
    | bool b => rfl
    | num lex => rfl
    | str s =>
      have hs : s = "" := by
        simpa [truthy, truthyJson, String.isEmpty_iff] using h
      subst hs
      rfl
    | arr l => simp [truthy, truthyJson] at h
    | obj f => simp [truthy, truthyJson] at h

theorem openAIParsed_eq_claimed (data : Json)
    (h : benignToolCallsJson data = true) :
    openAIParsed data = openAIParsedClaimed data := by
  unfold openAIParsed openAIParsedClaimed
  unfold benignToolCallsJson at h
  cases hch : jsProp (.val data) "choices" with
  | none => rfl
  | some choices =>
    rw [hch] at h
    dsimp only at h ⊢
    by_cases hg : (truthy choices && truthy (jsIndex choices 0)) = true
    case neg => simp only [if_neg hg]
    case pos =>
      simp only [if_pos hg] at h ⊢
      cases hx : jsIndex choices 0 with
      | undefined => rfl
      | val choice =>
        rw [hx] at h
        dsimp only at h ⊢
        by_cases ht : truthy (jsOptProp (jsPropNN choice "delta") "tool_calls") = true
        case pos =>
          rw [if_pos ht] at h
          simp only [if_pos ht]
          cases htc : jsOptProp (jsPropNN choice "delta") "tool_calls" with
          | undefined =>
            rw [htc] at ht
            simp [truthy] at ht
          | val j =>
            rw [htc] at h
            cases j with
            | arr entries =>
              dsimp only at h
              have hnn : ∀ tc ∈ entries.map JsValue.val,
                  jsProp tc "function" ≠ none := by
                intro tc hm
                rcases List.mem_map.mp hm with ⟨jj, hjj, rfl⟩
                have hj := List.all_eq_true.mp h jj hjj
                cases jj with
                | null => simp [jsonIsNull] at hj
                | bool b => simp [jsProp]
                | num lex => simp [jsProp]
                | str s => simp [jsProp]
                | arr l2 => simp [jsProp]
                | obj f2 => simp [jsProp]
              rw [show jsIter (JsValue.val (Json.arr entries)) =
                some (entries.map JsValue.val) from rfl]
              dsimp only
              rw [openAIToolCalls_of_no_throw (entries.map JsValue.val) hnn]
              simp
            | null => simp [truthy, truthyJson] at h
            | bool b => simp at h
            | num lex => simp at h
            | str s => simp at h
            | obj f2 => simp at h
        case neg =>
          simp only [if_neg ht] at h ⊢
          have hf : truthy (jsOptProp (jsPropNN choice "delta") "tool_calls") = false := by
            cases hb : truthy (jsOptProp (jsPropNN choice "delta") "tool_calls") with
            | true => exact absurd hb ht
            | false => rfl
          rw [claimed_tcEvs_of_falsy _ hf, List.append_nil]

theorem openAILine_eq_claimed (line : List Char)
    (h : benignToolCalls line = true) :
    openAILine line = openAILineClaimed line := by
  unfold openAILine openAILineClaimed
  unfold benignToolCalls at h
  split_ifs with h1 h2
  · rfl
  · cases hp : parseJson (line.drop 6) with
    | none => rfl
    | some data =>
      rw [hp] at h
      exact openAIParsed_eq_claimed data h
  · rfl

theorem flatMap_congr_of_mem {α β : Type} (f g : α → List β) (l : List α)
    (h : ∀ a ∈ l, f a = g a) : l.flatMap f = l.flatMap g := by
  induction l with
  | nil => rfl
  | cons x xs ih =>
    simp only [List.flatMap_cons]
    rw [h x (List.mem_cons_self x xs),
      ih (fun a m => h a (List.mem_cons_of_mem _ m))]

/-- C2 (amended): the delta-SSE decode pass splits the buffer on newline and
keeps the last element as the remainder; of the complete lines, blank lines
and the `data: [DONE]` sentinel produce no event, a `data: `-prefixed line
is JSON-parsed after stripping the marker, and — provided that
`choices[0].delta.tool_calls`, when truthy, is an array without `null`
entries — the events are exactly as the claim's sentence states them
(`openAILineClaimed`): one token for a truthy content, one `tool_call` per
entry carrying a function payload, one finish for a truthy
`finish_reason`. -/
theorem C2_delta_sse_decode (buf : List Char)
    (h : (splitNl buf).dropLast.all benignToolCalls = true) :
    processOpenAIBuffer buf =
      ((splitNl buf).dropLast.flatMap openAILineClaimed,
        (splitNl buf).getLastD []) := by
  unfold processOpenAIBuffer decodeLines
  refine congrArg (fun evs => (evs, (splitNl buf).getLastD [])) ?_
  refine flatMap_congr_of_mem _ _ _ (fun line hm => ?_)
  exact openAILine_eq_claimed line (List.all_eq_true.mp h line hm)

/-- A benign two-line delta-SSE buffer: a content delta with a well-formed
tool call, then the `[DONE]` sentinel (for concrete runs). -/
def c2wbuf : List Char :=
  ("data: \x7b\"choices\":[\x7b\"delta\":\x7b\"content\":\"Hi\",\"tool_calls\":[\x7b\"id\":\"1\",\"function\":\x7b\"name\":\"f\",\"arguments\":\"x\"\x7d\x7d]\x7d,\"finish_reason\":\"stop\"\x7d]\x7d\ndata: [DONE]\n").toList

set_option maxRecDepth 40000 in
/-- C2 witness: on the benign buffer the decode pass is exactly the claimed
per-line semantics plus the remainder rule. -/
theorem C2_witness :
    (splitNl c2wbuf).dropLast.all benignToolCalls = true ∧
      processOpenAIBuffer c2wbuf =
        ((splitNl c2wbuf).dropLast.flatMap openAILineClaimed,
          (splitNl c2wbuf).getLastD []) :=
  ⟨rfl, C2_delta_sse_decode c2wbuf rfl⟩

end Agentify
